import Mathlib

/-!
# totxt: a directory tree flattened into one text artifact

A shallow embedding of `main.go` (package `main` of `lyohe/totxt`) and of the
parts of the Go standard library it calls, followed by theorems about the
embedded functions `getIgnoreList`, `shouldIgnore`, `processDirectory` and
`main`.

## The model

* Go strings and file contents are byte sequences; they are embedded as lists
  of natural numbers (`Bytes`), a byte being a number below 256.
* The library functions (`utf8.DecodeRuneInString`, `filepath.Match`,
  `strings.TrimSpace`, `bufio.Scanner` with `ScanLines`, `filepath.Clean`,
  `filepath.Join`, `filepath.Walk`) follow the Go sources of release 1.16 and
  later, on a Unix system (separator `/`, backslash escapes in patterns).
* Loops whose Go form is not structurally recursive carry a fuel argument and
  return `none` when it runs out; the callers pass enough fuel, which is proved
  (`Match_fuel`, `TrimSpace_fuel`).
* The file system is a function from paths to nodes (`FS`); a node is a file
  with what reading it yields, a directory with its entries, or the error of
  `Lstat`.  The files that `main` reads do not change during a run, and the
  output file lies outside the tree that is walked.  Writes to the output file
  succeed (the program drops their errors).
* The path that the walk function computes with `filepath.Rel` is carried by
  the walk itself (`relJoin`): `.` for the root, the names joined by `/` below.
* The output file is the sequence of the writes made to it; its content is
  their concatenation (`File.contents`).
-/

namespace Totxt

/-! ## Bytes and errors -/

/-- A Go string: a sequence of bytes. -/
abbrev Bytes := List Nat

/-- UTF-8 encoding of one code point. -/
def encodeRune (r : Nat) : Bytes :=
  if r < 0x80 then [r]
  else if r < 0x800 then [0xC0 + r / 64, 0x80 + r % 64]
  else if r < 0x10000 then [0xE0 + r / 4096, 0x80 + r / 64 % 64, 0x80 + r % 64]
  else [0xF0 + r / 262144, 0x80 + r / 4096 % 64, 0x80 + r / 64 % 64, 0x80 + r % 64]

/-- The bytes of a string literal, as Go stores it (UTF-8). -/
def bytes (s : String) : Bytes :=
  s.data.flatMap (fun c => encodeRune c.toNat)

/-- The error numbers of failed system calls that the model distinguishes. -/
inductive Errno where
  | ENOENT
  | EACCES
  | ENOTDIR
  | EISDIR
  | EINVAL
  deriving DecidableEq, Repr

/-- The error values that reach `main.go`: the errno of a failed system call,
`bufio.ErrTooLong`, `filepath.ErrBadPattern`, and the two sentinels of
`filepath.Walk`. -/
inductive Error where
  | errno (e : Errno)
  | ErrTooLong
  | ErrBadPattern
  | SkipDir
  | SkipAll
  deriving DecidableEq, Repr

/-- Embedding of `os.IsNotExist`: true of the errors that report a missing
file, which for a system call is the errno `ENOENT`. -/
def IsNotExist (err : Option Error) : Bool :=
  err == some (Error.errno Errno.ENOENT)

/-! ## unicode/utf8 -/

/-- The value `utf8.RuneError`, U+FFFD. -/
def RuneError : Nat := 0xFFFD

/-- The tables `first` and `acceptRanges` of package `utf8`: for a leading byte
of a multi-byte sequence, the sequence's size and the accepted range of its
second byte; `none` for a byte that leads no such sequence. -/
def utf8First (s0 : Nat) : Option (Nat × Nat × Nat) :=
  if s0 < 0xC2 then none
  else if s0 < 0xE0 then some (2, 0x80, 0xBF)
  else if s0 = 0xE0 then some (3, 0xA0, 0xBF)
  else if s0 < 0xED then some (3, 0x80, 0xBF)
  else if s0 = 0xED then some (3, 0x80, 0x9F)
  else if s0 < 0xF0 then some (3, 0x80, 0xBF)
  else if s0 = 0xF0 then some (4, 0x90, 0xBF)
  else if s0 < 0xF4 then some (4, 0x80, 0xBF)
  else if s0 = 0xF4 then some (4, 0x80, 0x8F)
  else none

/-- A continuation byte, between `locb` and `hicb`. -/
def isCont (b : Nat) : Bool := 0x80 ≤ b && b ≤ 0xBF

/-- Embedding of `utf8.DecodeRuneInString`: the first rune of `s` and its width
in bytes; `(RuneError, 0)` for the empty string and `(RuneError, 1)` for an
invalid encoding. -/
def DecodeRuneInString : Bytes → Nat × Nat
  | [] => (RuneError, 0)
  | s0 :: t =>
    if s0 < 0x80 then (s0, 1)
    else
      match utf8First s0 with
      | none => (RuneError, 1)
      | some (sz, lo, hi) =>
        if t.length + 1 < sz then (RuneError, 1)
        else
          match t with
          | [] => (RuneError, 1)
          | s1 :: t1 =>
            if s1 < lo || hi < s1 then (RuneError, 1)
            else if sz ≤ 2 then (s0 % 32 * 64 + s1 % 64, 2)
            else
              match t1 with
              | [] => (RuneError, 1)
              | s2 :: t2 =>
                if !isCont s2 then (RuneError, 1)
                else if sz ≤ 3 then (s0 % 16 * 4096 + s1 % 64 * 64 + s2 % 64, 3)
                else
                  match t2 with
                  | [] => (RuneError, 1)
                  | s3 :: _ =>
                    if !isCont s3 then (RuneError, 1)
                    else (s0 % 8 * 262144 + s1 % 64 * 4096 + s2 % 64 * 64 + s3 % 64, 4)

/-! ## path/filepath: Match -/

/-- The path separator `/`. -/
def Separator : Nat := 47

/-- The scan loop of `scanChunk`: the text up to the first `*` outside a
bracket class, and the rest.  A backslash takes the next byte with it. -/
def scanChunkLoop (inrange : Bool) : Bytes → Bytes × Bytes
  | [] => ([], [])
  | c :: t =>
    if c = 92 then
      match t with
      | [] => ([c], [])
      | d :: t1 =>
        let r := scanChunkLoop inrange t1
        (c :: d :: r.1, r.2)
    else if c = 91 then
      let r := scanChunkLoop true t
      (c :: r.1, r.2)
    else if c = 93 then
      let r := scanChunkLoop false t
      (c :: r.1, r.2)
    else if c = 42 then
      if inrange then
        let r := scanChunkLoop inrange t
        (c :: r.1, r.2)
      else ([], c :: t)
    else
      let r := scanChunkLoop inrange t
      (c :: r.1, r.2)

/-- Embedding of `scanChunk`: the next segment of the pattern, a non-star
string possibly preceded by stars; returns `(star, chunk, rest)`. -/
def scanChunk (pattern : Bytes) : Bool × Bytes × Bytes :=
  let star := pattern.head? == some 42
  let r := scanChunkLoop false (pattern.dropWhile (fun c => c == 42))
  (star, r.1, r.2)

/-- Embedding of `getEsc`: a possibly escaped character of a character class;
returns `(r, nchunk, err)`. -/
def getEsc (chunk : Bytes) : Nat × Bytes × Option Error :=
  match chunk with
  | [] => (0, [], some Error.ErrBadPattern)
  | c :: t =>
    if c = 45 || c = 93 then (0, [], some Error.ErrBadPattern)
    else
      let chunk1 := if c = 92 then t else c :: t
      if chunk1.isEmpty then (0, [], some Error.ErrBadPattern)
      else
        let d := DecodeRuneInString chunk1
        let err1 : Option Error :=
          if d.1 = RuneError ∧ d.2 = 1 then some Error.ErrBadPattern else none
        let nchunk := chunk1.drop d.2
        let err2 : Option Error := if nchunk.isEmpty then some Error.ErrBadPattern else err1
        (d.1, nchunk, err2)

/-- The range loop of a character class in `matchChunk`: runs until the
closing bracket; returns the chunk after the class and whether `r` lies in one
of the ranges, or the error of a malformed class. -/
def classLoop : Nat → Bytes → Nat → Bool → Nat → Option (Bytes × Bool × Option Error)
  | 0, _, _, _, _ => none
  | fuel + 1, chunk, r, mtch, nrange =>
    if chunk.head? = some 93 ∧ 0 < nrange then some (chunk.tail, mtch, none)
    else
      let lo := getEsc chunk
      if lo.2.2.isSome then some ([], false, lo.2.2)
      else
        let hi := if lo.2.1.head? = some 45 then getEsc lo.2.1.tail else lo
        if hi.2.2.isSome then some ([], false, hi.2.2)
        else classLoop fuel hi.2.1 r (mtch || (decide (lo.1 ≤ r) && decide (r ≤ hi.1))) (nrange + 1)

/-- The loop of `matchChunk`, with the flag `failed` as an argument: after the
match has failed the loop goes on through the chunk, checking that it is
well-formed, and reads `s` no longer.  Returns `(rest, ok, err)`. -/
def matchChunkLoop : Nat → Bytes → Bytes → Bool → Option (Bytes × Bool × Option Error)
  | 0, _, _, _ => none
  | fuel + 1, chunk, s, failed0 =>
    match chunk with
    | [] => if failed0 then some ([], false, none) else some (s, true, none)
    | c :: rest =>
      let failed := failed0 || s.isEmpty
      if c = 91 then
        let d := DecodeRuneInString s
        let r := if failed then 0 else d.1
        let s1 := if failed then s else s.drop d.2
        let negated := rest.head? == some 94
        let chunk1 := if negated then rest.tail else rest
        match classLoop (chunk1.length + 1) chunk1 r false 0 with
        | none => none
        | some (_, _, some e) => some ([], false, some e)
        | some (chunk2, mtch, none) => matchChunkLoop fuel chunk2 s1 (failed || mtch == negated)
      else if c = 63 then
        if failed then matchChunkLoop fuel rest s failed
        else matchChunkLoop fuel rest (s.drop (DecodeRuneInString s).2) (s.head? == some Separator)
      else
        match (if c = 92 then rest else c :: rest) with
        | [] => some ([], false, some Error.ErrBadPattern)
        | l :: rest1 =>
          if failed then matchChunkLoop fuel rest1 s failed
          else matchChunkLoop fuel rest1 s.tail (s.head? != some l)

/-- Embedding of `matchChunk`: whether the chunk matches the beginning of `s`,
and the remainder of `s` after the match. -/
def matchChunk (chunk s : Bytes) : Option (Bytes × Bool × Option Error) :=
  matchChunkLoop (chunk.length + 1) chunk s false

/-- The inner loop of `Match` after a star: tries the chunk after skipping
`i + 1` bytes of the name, never skipping a separator.  Returns the remainder
of the name at the first match (`last` asks that the match end the name), or
the error of a malformed chunk. -/
def starLoop (chunk : Bytes) (last : Bool) : Bytes → Option (Option Bytes × Option Error)
  | [] => some (none, none)
  | c :: t1 =>
    if c = Separator then some (none, none)
    else
      match matchChunk chunk t1 with
      | none => none
      | some (t, ok, err) =>
        if ok then
          if last && !t.isEmpty then starLoop chunk last t1
          else some (some t, none)
        else if err.isSome then some (none, err)
        else starLoop chunk last t1

/-- The last loop of `Match`: before the answer "no match, no error", the rest
of the pattern is checked to be well-formed.  The loop bears on the error
only: the match result is false on either way out. -/
def checkRest : Nat → Bytes → Option (Option Error)
  | 0, _ => none
  | fuel + 1, pattern =>
    if pattern.isEmpty then some none
    else
      let sc := scanChunk pattern
      match matchChunk sc.2.1 [] with
      | none => none
      | some (_, _, some e) => some (some e)
      | some (_, _, none) => checkRest fuel sc.2.2

/-- The loop `Pattern` of `Match`; returns `(matched, err)`. -/
def matchLoop : Nat → Bytes → Bytes → Option (Bool × Option Error)
  | 0, _, _ => none
  | fuel + 1, pattern, name =>
    if pattern.isEmpty then some (name.isEmpty, none)
    else
      let sc := scanChunk pattern
      let star := sc.1
      let chunk := sc.2.1
      let rest := sc.2.2
      if star && chunk.isEmpty then some (!name.contains Separator, none)
      else
        match matchChunk chunk name with
        | none => none
        | some (t, ok, err) =>
          if ok && (t.isEmpty || !rest.isEmpty) then matchLoop fuel rest t
          else if err.isSome then some (false, err)
          else
            match (if star then starLoop chunk rest.isEmpty name else some (none, none)) with
            | none => none
            | some (some t1, _) => matchLoop fuel rest t1
            | some (none, some e) => some (false, some e)
            | some (none, none) =>
              match checkRest fuel rest with
              | none => none
              | some (some e) => some (false, some e)
              | some none => some (false, none)

/-- Embedding of `filepath.Match`: whether `name` matches the shell pattern,
and `ErrBadPattern` for a malformed pattern.  The fuel is the pattern's length
plus one; `Match_fuel` shows that it never runs out. -/
def Match (pattern name : Bytes) : Bool × Option Error :=
  (matchLoop (pattern.length + 1) pattern name).getD (false, none)

/-! ## main.go: shouldIgnore -/

/-- Embedding of `shouldIgnore` (main.go, lines 29-37): the first pattern that
matches makes the result true; the error of `filepath.Match` is dropped. -/
def shouldIgnore (filePath : Bytes) : List Bytes → Bool
  | [] => false
  | pattern :: ignoreList =>
    if (Match pattern filePath).1 then true else shouldIgnore filePath ignoreList

/-! ## unicode and strings: TrimSpace -/

/-- Embedding of `unicode.IsSpace`: the white space runes of Latin-1 and of
the table `White_Space`. -/
def IsSpace (r : Nat) : Bool :=
  if r ≤ 0xFF then
    r = 9 || r = 10 || r = 11 || r = 12 || r = 13 || r = 32 || r = 0x85 || r = 0xA0
  else
    r = 0x1680 || (0x2000 ≤ r && r ≤ 0x200A) || r = 0x2028 || r = 0x2029 || r = 0x202F
      || r = 0x205F || r = 0x3000

/-- The table `asciiSpace` of package `strings`. -/
def asciiSpace (c : Nat) : Bool :=
  c = 9 || c = 10 || c = 11 || c = 12 || c = 13 || c = 32

/-- Embedding of `utf8.RuneStart`: the byte is not a continuation byte. -/
def RuneStart (b : Nat) : Bool := !isCont b

/-- Embedding of `utf8.DecodeLastRuneInString`: the last rune of `s` and its
width; it looks back over at most four bytes for the start of the rune. -/
def DecodeLastRuneInString (s : Bytes) : Nat × Nat :=
  match s.reverse with
  | [] => (RuneError, 0)
  | r :: before =>
    if r < 0x80 then (r, 1)
    else
      let n := s.length
      let lim := n - 4
      let start :=
        match (before.take (n - 1 - lim)).findIdx? RuneStart with
        | some k => n - 2 - k
        | none => lim - 1
      let d := DecodeRuneInString (s.drop start)
      if start + d.2 ≠ n then (RuneError, 1) else d

/-- The loop of `strings.TrimLeftFunc(s, unicode.IsSpace)`: drops runes from the
left while they are white space. -/
def trimLeftLoop : Nat → Bytes → Option Bytes
  | 0, _ => none
  | fuel + 1, s =>
    if s.isEmpty then some []
    else
      let d := DecodeRuneInString s
      if IsSpace d.1 then trimLeftLoop fuel (s.drop d.2) else some s

/-- Embedding of `lastIndexFunc(s, unicode.IsSpace, false)`, started at index
`i`: the index of the last rune that is not white space, `some none` for the
Go result -1. -/
def lastIndexFunc : Nat → Bytes → Nat → Option (Option Nat)
  | 0, _, _ => none
  | fuel + 1, s, i =>
    if i = 0 then some none
    else
      let d := DecodeLastRuneInString (s.take i)
      if IsSpace d.1 then lastIndexFunc fuel s (i - d.2) else some (some (i - d.2))

/-- Embedding of `strings.TrimRightFunc(s, unicode.IsSpace)`. -/
def TrimRightFunc (s : Bytes) : Option Bytes :=
  match lastIndexFunc (s.length + 1) s s.length with
  | none => none
  | some none => some []
  | some (some i) =>
    if 0x80 ≤ s.getD i 0 then some (s.take (i + (DecodeRuneInString (s.drop i)).2))
    else some (s.take (i + 1))

/-- Embedding of `strings.TrimFunc(s, unicode.IsSpace)`. -/
def TrimFunc (s : Bytes) : Option Bytes :=
  match trimLeftLoop (s.length + 1) s with
  | none => none
  | some t => TrimRightFunc t

/-- The second loop of `strings.TrimSpace`, over the reversed string: white
space bytes are dropped from the end; a byte outside ASCII hands over to
`TrimRightFunc`. -/
def trimSpaceStop : Bytes → Option Bytes
  | [] => some []
  | c :: t =>
    if 0x80 ≤ c then TrimRightFunc (c :: t).reverse
    else if asciiSpace c then trimSpaceStop t
    else some (c :: t).reverse

/-- The first loop of `strings.TrimSpace`: white space bytes are dropped from
the start; a byte outside ASCII hands over to `TrimFunc`. -/
def trimSpaceStart : Bytes → Option Bytes
  | [] => some []
  | c :: t =>
    if 0x80 ≤ c then TrimFunc (c :: t)
    else if asciiSpace c then trimSpaceStart t
    else trimSpaceStop (c :: t).reverse

/-- Embedding of `strings.TrimSpace`; `TrimSpace_fuel` shows that the fuel of
its loops never runs out. -/
def TrimSpace (s : Bytes) : Bytes :=
  (trimSpaceStart s).getD []

/-! ## bufio: Scanner with ScanLines -/

/-- The constant `bufio.MaxScanTokenSize`, the largest size of the buffer. -/
def MaxScanTokenSize : Nat := 65536

/-- Embedding of `dropCR`: drops a terminal carriage return. -/
def dropCR (data : Bytes) : Bytes :=
  if data.getLast? = some 13 then data.dropLast else data

/-- The tokens that `Scanner.Scan` with the split function `ScanLines` yields
on the unread input, and the error of `Scanner.Err`.  `cur` is the part of the
current line already in the buffer.  A newline ends a token; at the end of the
input a non-empty last line is a token; a buffer filled with
`MaxScanTokenSize` bytes that hold no newline stops the scanner with
`ErrTooLong`. -/
def scanLines (cur : Bytes) : Bytes → List Bytes × Option Error
  | [] => if cur.isEmpty then ([], none) else ([dropCR cur], none)
  | c :: t =>
    if c = 10 then
      let r := scanLines [] t
      (dropCR cur :: r.1, r.2)
    else if MaxScanTokenSize ≤ cur.length + 1 then ([], some Error.ErrTooLong)
    else scanLines (cur ++ [c]) t

/-! ## The file system -/

/-- What the file system holds at a path.
* `file read`: an entry that is no directory; `read` is what `os.ReadFile`
  returns for it.
* `dir listErr entries`: a directory with its entries by name, in the order
  the system lists them; when `listErr` is an error, reading the list of names
  fails with it.
* `nostat err`: `os.Lstat` fails with `err` (for `ENOENT`: nothing is there). -/
inductive Node where
  | file (read : Except Errno Bytes)
  | dir (listErr : Option Errno) (entries : List (Bytes × Node))
  | nostat (err : Errno)

/-- The file system as `main` sees it: the node at each path, and the result
of `os.Create` on each path (`none`: the file is created, empty).  The
files that `main` reads are taken not to change during the run; the output
file lies outside them. -/
structure FS where
  node : Bytes → Node
  create : Bytes → Option Errno

/-- Embedding of `os.Lstat`, as far as `filepath.Walk` uses it; the empty path
names nothing. -/
def Lstat (fs : FS) (path : Bytes) : Node :=
  if path.isEmpty then Node.nostat Errno.ENOENT else fs.node path

/-- Embedding of `FileInfo.IsDir`. -/
def Node.IsDir : Node → Bool
  | Node.dir _ _ => true
  | _ => false

/-- Embedding of `os.ReadFile` on the node at a path. -/
def ReadFile : Node → Except Errno Bytes
  | Node.file read => read
  | Node.dir _ _ => Except.error Errno.EISDIR
  | Node.nostat err => Except.error err

/-- An open file: the bytes it will deliver and the error that ends the
reading, if any. -/
structure OpenFile where
  data : Bytes
  readErr : Option Errno

/-- Embedding of `os.Open` on the node at a path: a directory opens and fails
at the first read. -/
def Open : Node → Except Errno OpenFile
  | Node.file (Except.ok data) => Except.ok ⟨data, none⟩
  | Node.file (Except.error err) => Except.error err
  | Node.dir _ _ => Except.ok ⟨[], some Errno.EISDIR⟩
  | Node.nostat err => Except.error err

/-! ## main.go: getIgnoreList -/

/-- The loop of `getIgnoreList` (main.go, lines 22-25) over the scanner's
tokens: each line is appended after `strings.TrimSpace`. -/
def getIgnoreListLoop (ignoreList : List Bytes) : List Bytes → List Bytes
  | [] => ignoreList
  | line :: rest => getIgnoreListLoop (ignoreList ++ [TrimSpace line]) rest

/-- Embedding of `getIgnoreList` (main.go, lines 13-27): the pattern list and
the error. -/
def getIgnoreList (fs : FS) (ignoreFilePath : Bytes) : List Bytes × Option Error :=
  match Open (fs.node ignoreFilePath) with
  | Except.error err => ([], some (Error.errno err))
  | Except.ok file =>
    let sc := scanLines [] file.data
    let scanErr : Option Error :=
      match sc.2 with
      | some e => some e
      | none => file.readErr.map Error.errno
    (getIgnoreListLoop [] sc.1, scanErr)

/-! ## path/filepath: Clean, Join, Walk -/

/-- The loop of `filepath.Clean` over the elements of the path: empty elements
and `.` are dropped, `..` removes the element before it when there is one to
remove; `out` holds the elements kept so far, last first. -/
def cleanLoop (rooted : Bool) : List Bytes → List Bytes → List Bytes
  | out, [] => out.reverse
  | out, c :: cs =>
    if c.isEmpty || c == bytes "." then cleanLoop rooted out cs
    else if c == bytes ".." then
      match out with
      | [] => if rooted then cleanLoop rooted [] cs else cleanLoop rooted [c] cs
      | o :: os =>
        if o == bytes ".." then cleanLoop rooted (c :: o :: os) cs
        else cleanLoop rooted os cs
    else cleanLoop rooted (c :: out) cs

/-- Embedding of `filepath.Clean` on Unix. -/
def Clean (path : Bytes) : Bytes :=
  if path.isEmpty then bytes "."
  else
    let rooted := path.head? == some Separator
    let body := [Separator].intercalate (cleanLoop rooted [] (path.splitOn Separator))
    if rooted then Separator :: body
    else if body.isEmpty then bytes "."
    else body

/-- Embedding of `filepath.Join`: the elements from the first non-empty one on,
joined by separators and cleaned. -/
def Join (elem : List Bytes) : Bytes :=
  match elem.dropWhile (fun e => e.isEmpty) with
  | [] => []
  | es => Clean ([Separator].intercalate es)

/-- The path of an entry relative to the root of the walk, the value of
`filepath.Rel(dirPath, path)` for the paths that `filepath.Walk` builds by
joining entry names to the root: `.` for the root itself, and the names from
the root down, separated by `/`, for the entries below it. -/
def relJoin (rel name : Bytes) : Bytes :=
  if rel = bytes "." then name else rel ++ Separator :: name

/-- Whether `a` comes before `b` in byte order, or equals it: the order of Go
strings, in which `readDirNames` sorts the names of a directory. -/
def bytesLE : Bytes → Bytes → Bool
  | [], _ => true
  | _ :: _, [] => false
  | a :: as, b :: bs => a < b || (a == b && bytesLE as bs)

/-- Insertion of an entry into a list of entries sorted by name. -/
def insertEntry (x : Bytes × Node) : List (Bytes × Node) → List (Bytes × Node)
  | [] => [x]
  | y :: ys => if bytesLE x.1 y.1 then x :: y :: ys else y :: insertEntry x ys

mutual
/-- The tree as `filepath.Walk` reads it: `readDirNames` sorts the names of
every directory it lists. -/
def Node.sorted : Node → Node
  | Node.file read => Node.file read
  | Node.dir listErr entries => Node.dir listErr (sortEntries entries)
  | Node.nostat err => Node.nostat err
/-- The entries of a directory sorted by name, each with its tree sorted. -/
def sortEntries : List (Bytes × Node) → List (Bytes × Node)
  | [] => []
  | (name, node) :: rest => insertEntry (name, node.sorted) (sortEntries rest)
end

/-- The type `filepath.WalkFunc`, with the state that the function works on
passed through.  The function gets the relative path of the entry (for the
path), the node (for the `FileInfo`, and for what the path holds) and the
error of `Lstat` or of reading the directory. -/
abbrev WalkFunc (σ : Type) := σ → Bytes → Node → Option Error → σ × Option Error

mutual
/-- Embedding of `walk` of package `filepath`: the function is called on the
entry; a directory that was read and on which the function returned no error
is then walked name by name. -/
def walk {σ : Type} (walkFn : WalkFunc σ) (rel : Bytes) : Node → σ → σ × Option Error
  | Node.file read, s => walkFn s rel (Node.file read) none
  | Node.nostat err, s => walkFn s rel (Node.nostat err) (some (Error.errno err))
  | Node.dir listErr entries, s =>
    let r := walkFn s rel (Node.dir listErr entries) (listErr.map Error.errno)
    if listErr.isSome || r.2.isSome then r
    else walkNames walkFn rel entries r.1
/-- The loop of `walk` over the names of a directory.  `SkipDir` from the
function on a directory, or on an entry whose `Lstat` failed, skips that entry
only; any other error ends the walk. -/
def walkNames {σ : Type} (walkFn : WalkFunc σ) (rel : Bytes) :
    List (Bytes × Node) → σ → σ × Option Error
  | [], s => (s, none)
  | (name, Node.nostat err) :: rest, s =>
    let r := walkFn s (relJoin rel name) (Node.nostat err) (some (Error.errno err))
    if r.2.isSome && r.2 != some Error.SkipDir then r
    else walkNames walkFn rel rest r.1
  | (name, Node.file read) :: rest, s =>
    let r := walk walkFn (relJoin rel name) (Node.file read) s
    if r.2.isSome then r
    else walkNames walkFn rel rest r.1
  | (name, Node.dir listErr entries) :: rest, s =>
    let r := walk walkFn (relJoin rel name) (Node.dir listErr entries) s
    if r.2.isSome && r.2 != some Error.SkipDir then r
    else walkNames walkFn rel rest r.1
end

/-- Embedding of `filepath.Walk` on the node found at the root: when `Lstat`
of the root fails the function is called with the error, otherwise the tree is
walked in the order of the sorted names; `SkipDir` and `SkipAll` at the top
become no error. -/
def Walk {σ : Type} (root : Node) (walkFn : WalkFunc σ) (s : σ) : σ × Option Error :=
  let r := walk walkFn (bytes ".") root.sorted s
  if r.2 = some Error.SkipDir ∨ r.2 = some Error.SkipAll then (r.1, none) else r

/-! ## main.go: processDirectory -/

/-- The output file: the writes made to it, in order. -/
abbrev File := List Bytes

/-- The bytes that the file holds. -/
def File.contents (f : File) : Bytes := f.flatten

/-- Embedding of `File.WriteString`; the error of the write is dropped by the
callers. -/
def WriteString (f : File) (s : Bytes) : File := f ++ [s]

/-- The call `fmt.Fprintf(outputFile, "----\n%s\n%s\n", relativeFilePath,
string(content))` of main.go, line 60: one write of the formatted text. -/
def Fprintf (outputFile : File) (relativeFilePath content : Bytes) : File :=
  outputFile ++ [bytes "----\n" ++ relativeFilePath ++ bytes "\n" ++ content ++ bytes "\n"]

/-- The function literal that `processDirectory` passes to `filepath.Walk`
(main.go, lines 41-62). -/
def walkFn (ignoreList : List Bytes) : WalkFunc File :=
  fun outputFile relativeFilePath info err =>
    if err.isSome then (outputFile, err)
    else if shouldIgnore relativeFilePath ignoreList then (outputFile, none)
    else if info.IsDir then (outputFile, none)
    else
      match ReadFile info with
      | Except.error e => (outputFile, some (Error.errno e))
      | Except.ok content => (Fprintf outputFile relativeFilePath content, none)

/-- Embedding of `processDirectory` (main.go, lines 40-64): the output file
after the walk, and the error of the walk. -/
def processDirectory (fs : FS) (dirPath : Bytes) (ignoreList : List Bytes) (outputFile : File) :
    File × Option Error :=
  Walk (Lstat fs dirPath) (walkFn ignoreList) outputFile

/-! ## main.go: main -/

/-- The text that `main` writes when the flag `-p` is empty (main.go, line 104). -/
def defaultPreamble : Bytes :=
  bytes "The following text is a diretory structure with code. The structure of the text are sections that begin with ----, followed by a single line containing the file path and file name, followed by a variable amount of lines containing the file contents. The text representing the directory ends when the symbols --END-- are encounted. Any further text beyond --END-- are meant to be interpreted as instructions using the aforementioned directory as context.\n"

/-- The lines that `main` prints on standard output. -/
inductive Msg where
  | usage
  | errIgnore (e : Error)
  | errCreate (e : Errno)
  | errPreamble (e : Errno)
  | errProcess (e : Error)
  | written (outputFile : Bytes)
  deriving DecidableEq

/-- What a run of `main` leaves: the exit status, the lines printed, and the
output file if it was created. -/
structure Outcome where
  exitCode : Nat
  stdout : List Msg
  outFile : Option File
  deriving DecidableEq

/-- The part of `main` after the ignore list is loaded (main.go, lines
89-114): the output file is created, the preamble written, the directory
processed and the terminal marker appended. -/
def mainBody (fs : FS) (preambleFile outputFile dirPath : Bytes) (ignoreList : List Bytes) :
    Outcome :=
  match fs.create outputFile with
  | some e => ⟨1, [Msg.errCreate e], none⟩
  | none =>
    let outFile : File := []
    let preamble : Except Errno File :=
      if preambleFile ≠ [] then
        match ReadFile (fs.node preambleFile) with
        | Except.error e => Except.error e
        | Except.ok preambleContent => Except.ok (WriteString outFile (preambleContent ++ bytes "\n"))
      else Except.ok (WriteString outFile defaultPreamble)
    match preamble with
    | Except.error e => ⟨1, [Msg.errPreamble e], some outFile⟩
    | Except.ok outFile1 =>
      let r := processDirectory fs dirPath ignoreList outFile1
      match r.2 with
      | some e => ⟨1, [Msg.errProcess e], some r.1⟩
      | none => ⟨0, [Msg.written outputFile], some (WriteString r.1 (bytes "--END--"))⟩

/-- Embedding of `main` (main.go, lines 66-115).  The flags are taken as
parsed: `preambleFile` is the value of `-p`, `outputFile` the value of `-o`,
`args` the arguments after the flags. -/
def main (fs : FS) (preambleFile outputFile : Bytes) (args : List Bytes) : Outcome :=
  match args with
  | [] => ⟨1, [Msg.usage], none⟩
  | dirPath :: _ =>
    let ignoreFilePath := Join [dirPath, bytes ".totxtignore"]
    let r := getIgnoreList fs ignoreFilePath
    match r.2 with
    | some err =>
      if !IsNotExist (some err) then ⟨1, [Msg.errIgnore err], none⟩
      else mainBody fs preambleFile outputFile dirPath r.1
    | none => mainBody fs preambleFile outputFile dirPath r.1

/-! ## Definitions for the statements

What the specification speaks of, defined apart from the code: the lines of a
text, the files of a tree, the visits of a walk and what each of them does, the
records, and the variant of the walk with pruning. -/

/-- The lines of a text, as the specification speaks of them: a line ends at a
newline; text after the last newline is a line when it is not empty.  The
carriage return of a line that ends in `\r\n` belongs to the line here. -/
def textLines : Bytes → List Bytes
  | [] => []
  | c :: t =>
    if c = 10 then [] :: textLines t
    else
      match textLines t with
      | [] => [[c]]
      | l :: ls => (c :: l) :: ls

mutual
/-- The regular files of a tree with their relative paths, in depth-first
order, the entries of each directory in the order listed: for each file its
relative path and what reading it yields. -/
def files (rel : Bytes) : Node → List (Bytes × Except Errno Bytes)
  | Node.file read => [(rel, read)]
  | Node.dir _ entries => filesNames rel entries
  | Node.nostat _ => []
/-- The regular files below the entries of a directory. -/
def filesNames (rel : Bytes) : List (Bytes × Node) → List (Bytes × Except Errno Bytes)
  | [] => []
  | (name, node) :: rest => files (relJoin rel name) node ++ filesNames rel rest
end

mutual
/-- The entries that a walk visits when the function never returns an error,
in the order of the visits: an entry, then, for a directory that was read, the
visits of its entries. -/
def visits (rel : Bytes) : Node → List (Bytes × Node)
  | Node.file read => [(rel, Node.file read)]
  | Node.nostat err => [(rel, Node.nostat err)]
  | Node.dir (some e) entries => [(rel, Node.dir (some e) entries)]
  | Node.dir none entries => (rel, Node.dir none entries) :: visitsNames rel entries
/-- The visits of the entries of a directory. -/
def visitsNames (rel : Bytes) : List (Bytes × Node) → List (Bytes × Node)
  | [] => []
  | (name, node) :: rest => visits (relJoin rel name) node ++ visitsNames rel rest
end

/-- The error that `walk` passes to the function with an entry: the error of
`Lstat`, or of reading the names of the directory. -/
def visitErr : Node → Option Error
  | Node.file _ => none
  | Node.dir listErr _ => listErr.map Error.errno
  | Node.nostat err => some (Error.errno err)

/-- A sequence of visits run through the function; the first error ends it. -/
def runVisits {σ : Type} (walkFn : WalkFunc σ) : List (Bytes × Node) → σ → σ × Option Error
  | [], s => (s, none)
  | v :: vs, s =>
    let r := walkFn s v.1 v.2 (visitErr v.2)
    if r.2.isSome then r else runVisits walkFn vs r.1

/-- The text of one record: the header token, the relative path and the
content, each followed by a newline. -/
def block (relativeFilePath content : Bytes) : Bytes :=
  bytes "----" ++ [10] ++ relativeFilePath ++ [10] ++ content ++ [10]

/-- The record that the walk writes at a visit, if any: the entry is a file
that read, and its relative path matches no pattern. -/
def recordOf (ignoreList : List Bytes) (v : Bytes × Node) : Option Bytes :=
  match v.2 with
  | Node.file (Except.ok content) =>
    if shouldIgnore v.1 ignoreList then none else some (block v.1 content)
  | _ => none

/-- The error with which the walk ends at a visit, if any: an entry that
cannot be examined or listed, or a file that cannot be read and whose relative
path matches no pattern. -/
def failure (ignoreList : List Bytes) (v : Bytes × Node) : Option Error :=
  match v.2 with
  | Node.file (Except.ok _) => none
  | Node.file (Except.error e) =>
    if shouldIgnore v.1 ignoreList then none else some (Error.errno e)
  | Node.dir listErr _ => listErr.map Error.errno
  | Node.nostat err => some (Error.errno err)

/-- The file seen at a visit, if the entry is a file: its relative path and
what reading it yields. -/
def fileOf (v : Bytes × Node) : Option (Bytes × Except Errno Bytes) :=
  match v.2 with
  | Node.file read => some (v.1, read)
  | _ => none

/-- The record of a file, if it has one: it read, and its relative path
matches no pattern. -/
def recordOfFile (ignoreList : List Bytes) (f : Bytes × Except Errno Bytes) : Option Bytes :=
  if shouldIgnore f.1 ignoreList then none
  else
    match f.2 with
    | Except.ok content => some (block f.1 content)
    | Except.error _ => none

/-- Whether the names of a list of entries are in byte order, each before
the next. -/
def sortedNames : List (Bytes × Node) → Bool
  | [] => true
  | [_] => true
  | x :: y :: rest => bytesLE x.1 y.1 && sortedNames (y :: rest)

mutual
/-- Whether the names of every directory of the tree are in byte order. -/
def namesSorted : Node → Bool
  | Node.file _ => true
  | Node.nostat _ => true
  | Node.dir _ entries => sortedNames entries && namesSortedNames entries
/-- Whether the names of every directory below the entries are in byte order. -/
def namesSortedNames : List (Bytes × Node) → Bool
  | [] => true
  | (_, node) :: rest => namesSorted node && namesSortedNames rest
end

/-- The variant of the walk function that the specification considers as an
optimisation: a directory whose relative path matches a pattern is skipped
with its whole subtree, by `filepath.SkipDir`. -/
def walkFnPruned (ignoreList : List Bytes) : WalkFunc File :=
  fun outputFile relativeFilePath info err =>
    if err.isSome then (outputFile, err)
    else if shouldIgnore relativeFilePath ignoreList then
      if info.IsDir then (outputFile, some Error.SkipDir) else (outputFile, none)
    else if info.IsDir then (outputFile, none)
    else
      match ReadFile info with
      | Except.error e => (outputFile, some (Error.errno e))
      | Except.ok content => (Fprintf outputFile relativeFilePath content, none)

/-- The variant of `processDirectory` with pruning. -/
def processDirectoryPruned (fs : FS) (dirPath : Bytes) (ignoreList : List Bytes)
    (outputFile : File) : File × Option Error :=
  Walk (Lstat fs dirPath) (walkFnPruned ignoreList) outputFile

mutual
/-- Whether the relative path of some directory of the tree matches a pattern. -/
def dirIgnored (ignoreList : List Bytes) (rel : Bytes) : Node → Bool
  | Node.file _ => false
  | Node.nostat _ => false
  | Node.dir _ entries =>
    shouldIgnore rel ignoreList || dirIgnoredNames ignoreList rel entries
/-- Whether some directory below the entries matches a pattern. -/
def dirIgnoredNames (ignoreList : List Bytes) (rel : Bytes) : List (Bytes × Node) → Bool
  | [] => false
  | (name, node) :: rest =>
    dirIgnored ignoreList (relJoin rel name) node || dirIgnoredNames ignoreList rel rest
end

/-- A visit without effect in the walk as implemented: it does not fail and
it writes no record.  The entry is a directory that can be listed, or a file
whose relative path matches a pattern. -/
def inert (ignoreList : List Bytes) (v : Bytes × Node) : Bool :=
  (failure ignoreList v).isNone && (recordOf ignoreList v).isNone

mutual
/-- Whether pruning loses nothing in a tree: below every directory whose
relative path matches a pattern, every visit of the walk as implemented is
without effect. -/
def prunable (ignoreList : List Bytes) (rel : Bytes) : Node → Bool
  | Node.file _ => true
  | Node.nostat _ => true
  | Node.dir (some _) _ => true
  | Node.dir none entries =>
    if shouldIgnore rel ignoreList then (visitsNames rel entries).all (inert ignoreList)
    else prunableNames ignoreList rel entries
/-- Whether pruning loses nothing below the entries of a directory. -/
def prunableNames (ignoreList : List Bytes) (rel : Bytes) : List (Bytes × Node) → Bool
  | [] => true
  | (name, node) :: rest =>
    prunable ignoreList (relJoin rel name) node && prunableNames ignoreList rel rest
end

/-- The built-in explanatory text of the preamble, without the newline that
ends the string constant of main.go, line 104. -/
def defaultText : Bytes :=
  bytes "The following text is a diretory structure with code. The structure of the text are sections that begin with ----, followed by a single line containing the file path and file name, followed by a variable amount of lines containing the file contents. The text representing the directory ends when the symbols --END-- are encounted. Any further text beyond --END-- are meant to be interpreted as instructions using the aforementioned directory as context."

/-! ## Example inputs -/

/-- A small tree: a directory `sub` with one file, a Go file and an ignore
file, listed in no particular order. -/
def exampleTree : Node :=
  Node.dir none
    [(bytes "sub", Node.dir none [(bytes "file.txt", Node.file (Except.ok (bytes "x")))]),
     (bytes "a.go", Node.file (Except.ok (bytes "package a"))),
     (bytes ".totxtignore", Node.file (Except.ok (bytes "*.txt\n\n*.log\n")))]

/-- A file system that holds `exampleTree` at the path `root`, and nothing
else but the ignore file of the tree. -/
def exampleFS : FS where
  node := fun path =>
    if path = bytes "root" then exampleTree
    else if path = bytes "root/.totxtignore" then Node.file (Except.ok (bytes "*.txt\n\n*.log\n"))
    else Node.nostat Errno.ENOENT
  create := fun _ => none

/-- A file system with a directory `root` that holds one file and no ignore
file, and a file `locked` that cannot be opened. -/
def plainFS : FS where
  node := fun path =>
    if path = bytes "root" then
      Node.dir none [(bytes "testfile.txt", Node.file (Except.ok (bytes "test content")))]
    else if path = bytes "locked/.totxtignore" then Node.file (Except.error Errno.EACCES)
    else Node.nostat Errno.ENOENT
  create := fun _ => none

/-- A file system whose directory `root` holds a file that cannot be read,
between two files that can. -/
def brokenFS : FS where
  node := fun path =>
    if path = bytes "root" then
      Node.dir none
        [(bytes "c.txt", Node.file (Except.ok (bytes "3"))),
         (bytes "b.txt", Node.file (Except.error Errno.EACCES)),
         (bytes "a.txt", Node.file (Except.ok (bytes "1")))]
    else Node.nostat Errno.ENOENT
  create := fun _ => none

/-- A file system that holds the ignore file of the test `TestGetIgnoreList`:
the two lines `*.txt` and `*.log`. -/
def testFS : FS where
  node := fun path =>
    if path = bytes "test.gptignore" then Node.file (Except.ok (bytes "*.txt\n*.log\n"))
    else Node.nostat Errno.ENOENT
  create := fun _ => none

/-! ## Theorems -/

theorem DecodeRuneInString_width (s : Bytes) (h : s ≠ []) :
    1 ≤ (DecodeRuneInString s).2 ∧ (DecodeRuneInString s).2 ≤ s.length := by
  cases s with
  | nil => exact absurd rfl h
  | cons s0 t =>
    unfold DecodeRuneInString
    repeat' split
    all_goals simp_all

theorem shouldIgnore_iff (P : Bytes) (S : List Bytes) :
    shouldIgnore P S = true ↔ ∃ pattern ∈ S, (Match pattern P).1 = true := by
  induction S with
  | nil => simp [shouldIgnore]
  | cons p S ih =>
    simp only [shouldIgnore, List.mem_cons, exists_eq_or_imp]
    by_cases h : (Match p P).1 = true
    · simp [h]
    · simp [h, ih]

theorem trimLeftLoop_ne_none (fuel : Nat) : ∀ (s : Bytes), s.length < fuel →
    trimLeftLoop fuel s ≠ none := by
  induction fuel with
  | zero => intro s h; omega
  | succ fuel ih =>
    intro s h
    simp only [trimLeftLoop]
    by_cases hs : s.isEmpty = true
    · rw [if_pos hs]; simp
    · rw [if_neg hs]
      have hne : s ≠ [] := by intro h0; simp [h0] at hs
      have hw := DecodeRuneInString_width s hne
      split
      · apply ih
        simp only [List.length_drop]
        have : 0 < s.length := List.length_pos.mpr hne
        omega
      · simp

theorem DecodeLastRuneInString_width (s : Bytes) (h : s ≠ []) :
    1 ≤ (DecodeLastRuneInString s).2 ∧ (DecodeLastRuneInString s).2 ≤ s.length := by
  have hn : 0 < s.length := List.length_pos.mpr h
  unfold DecodeLastRuneInString
  split
  · rename_i hrev
    simp at hrev
    exact absurd hrev h
  · rename_i r before hrev
    by_cases hr : r < 0x80
    · rw [if_pos hr]; exact ⟨le_refl _, hn⟩
    · rw [if_neg hr]
      simp only []
      generalize hstart : (match (List.take (s.length - 1 - (s.length - 4)) before).findIdx? RuneStart with
        | some k => s.length - 2 - k
        | none => s.length - 4 - 1) = start
      have hlt : start < s.length := by
        rw [← hstart]
        split
        · exact lt_of_le_of_lt (Nat.sub_le _ _) (Nat.sub_lt hn (by norm_num))
        · exact lt_of_le_of_lt (Nat.sub_le _ _) (Nat.sub_lt hn (by norm_num))
      have hne : s.drop start ≠ [] := by
        intro h0
        have := congrArg List.length h0
        simp only [List.length_drop, List.length_nil] at this
        omega
      have hw := DecodeRuneInString_width _ hne
      split
      · exact ⟨le_refl _, hn⟩
      · rename_i heq
        simp only [ne_eq, Decidable.not_not] at heq
        omega

theorem lastIndexFunc_ne_none (fuel : Nat) : ∀ (s : Bytes) (i : Nat), i < fuel → i ≤ s.length →
    lastIndexFunc fuel s i ≠ none := by
  induction fuel with
  | zero => intro s i h; omega
  | succ fuel ih =>
    intro s i h hi
    simp only [lastIndexFunc]
    by_cases h0 : i = 0
    · rw [if_pos h0]; simp
    · rw [if_neg h0]
      have hne : s.take i ≠ [] := by
        intro h1
        have := congrArg List.length h1
        simp only [List.length_take, List.length_nil] at this
        omega
      have hw := DecodeLastRuneInString_width _ hne
      split
      · apply ih <;> omega
      · simp

theorem TrimRightFunc_ne_none (s : Bytes) : TrimRightFunc s ≠ none := by
  unfold TrimRightFunc
  split
  · rename_i heq
    exact absurd heq (lastIndexFunc_ne_none _ _ _ (Nat.lt_succ_self _) (le_refl _))
  · simp
  · split <;> simp

theorem TrimFunc_ne_none (s : Bytes) : TrimFunc s ≠ none := by
  unfold TrimFunc
  split
  · rename_i heq
    exact absurd heq (trimLeftLoop_ne_none _ _ (Nat.lt_succ_self _))
  · exact TrimRightFunc_ne_none _

theorem trimSpaceStop_ne_none (s : Bytes) : trimSpaceStop s ≠ none := by
  induction s with
  | nil => simp [trimSpaceStop]
  | cons c t ih =>
    simp only [trimSpaceStop]
    repeat' split
    · exact TrimRightFunc_ne_none _
    · exact ih
    · simp

theorem trimSpaceStart_ne_none (s : Bytes) : trimSpaceStart s ≠ none := by
  induction s with
  | nil => simp [trimSpaceStart]
  | cons c t ih =>
    simp only [trimSpaceStart]
    repeat' split
    · exact TrimFunc_ne_none _
    · exact ih
    · exact trimSpaceStop_ne_none _

/-- The fuel of the loops of `TrimSpace` is enough. -/
theorem TrimSpace_fuel (s : Bytes) : trimSpaceStart s = some (TrimSpace s) := by
  unfold TrimSpace
  cases h : trimSpaceStart s with
  | none => exact absurd h (trimSpaceStart_ne_none s)
  | some r => rfl

theorem textLines_append_newline (cur t : Bytes) (h : 10 ∉ cur) :
    textLines (cur ++ 10 :: t) = cur :: textLines t := by
  induction cur with
  | nil => simp [textLines]
  | cons c cur ih =>
    have hc : c ≠ 10 := fun h0 => h (h0 ▸ List.mem_cons_self _ _)
    have ih1 := ih (fun h0 => h (List.mem_cons_of_mem _ h0))
    simp [textLines, hc, ih1]

theorem textLines_no_newline (cur : Bytes) (h : 10 ∉ cur) (hne : cur ≠ []) :
    textLines cur = [cur] := by
  induction cur with
  | nil => exact absurd rfl hne
  | cons c cur ih =>
    have hc : c ≠ 10 := fun h0 => h (h0 ▸ List.mem_cons_self _ _)
    by_cases hcur : cur = []
    · subst hcur; simp [textLines, hc]
    · have ih1 := ih (fun h0 => h (List.mem_cons_of_mem _ h0)) hcur
      simp [textLines, hc, ih1]

theorem scanLines_ok (data : Bytes) : ∀ (cur : Bytes) (toks : List Bytes), 10 ∉ cur →
    scanLines cur data = (toks, none) → toks = (textLines (cur ++ data)).map dropCR := by
  induction data with
  | nil =>
    intro cur toks hcur h
    simp only [scanLines] at h
    by_cases hc : cur.isEmpty = true
    · rw [if_pos hc] at h
      have : cur = [] := by simpa using hc
      subst this
      simp at h
      simp [textLines, h]
    · rw [if_neg hc] at h
      have hne : cur ≠ [] := by intro h0; simp [h0] at hc
      simp only [Prod.mk.injEq, and_true] at h
      simp [textLines_no_newline cur hcur hne, ← h]
  | cons c t ih =>
    intro cur toks hcur h
    simp only [scanLines] at h
    by_cases hc : c = 10
    · subst hc
      rw [if_pos rfl] at h
      simp only [Prod.mk.injEq] at h
      have h1 := ih [] (scanLines [] t).1 (by simp) (by rw [← h.2])
      simp only [List.nil_append] at h1
      rw [textLines_append_newline cur t hcur, ← h.1, h1]
      simp
    · rw [if_neg hc] at h
      split at h
      · simp at h
      · have h1 := ih (cur ++ [c]) toks (by simp [hcur, Ne.symm hc]) h
        simpa using h1

theorem getIgnoreListLoop_eq (lines : List Bytes) : ∀ (ignoreList : List Bytes),
    getIgnoreListLoop ignoreList lines = ignoreList ++ lines.map TrimSpace := by
  induction lines with
  | nil => intro ignoreList; simp [getIgnoreListLoop]
  | cons l rest ih => intro ignoreList; simp [getIgnoreListLoop, ih]

theorem getIgnoreList_ok (fs : FS) (ignoreFilePath : Bytes)
    (h : (getIgnoreList fs ignoreFilePath).2 = none) :
    ∃ data, fs.node ignoreFilePath = Node.file (Except.ok data) ∧
      (getIgnoreList fs ignoreFilePath).1 = (textLines data).map (fun l => TrimSpace (dropCR l)) := by
  unfold getIgnoreList at h ⊢
  cases hn : fs.node ignoreFilePath with
  | file read =>
    cases read with
    | error e => simp [hn, Open] at h
    | ok data =>
      refine ⟨data, rfl, ?_⟩
      simp only [hn, Open] at h ⊢
      have hs : (scanLines [] data).2 = none := by
        cases hx : (scanLines [] data).2 with
        | none => rfl
        | some e => simp [hx] at h
      have := scanLines_ok data [] (scanLines [] data).1 (by simp) (by rw [← hs])
      rw [getIgnoreListLoop_eq, this]
      simp
  | dir listErr entries =>
    simp only [hn, Open] at h
    split at h <;> simp at h
  | nostat err => simp [hn, Open] at h

theorem runVisits_append {σ : Type} (fn : WalkFunc σ) (vs ws : List (Bytes × Node)) :
    ∀ (s : σ), runVisits fn (vs ++ ws) s =
      if (runVisits fn vs s).2.isSome then runVisits fn vs s
      else runVisits fn ws (runVisits fn vs s).1 := by
  induction vs with
  | nil => intro s; simp [runVisits]
  | cons v vs ih =>
    intro s
    simp only [List.cons_append, runVisits]
    by_cases h : (fn s v.1 v.2 (visitErr v.2)).2.isSome = true
    · simp [h]
    · simp only [h, if_false, Bool.false_eq_true]
      exact ih _

theorem ite_isSome_self {σ : Type} (r : σ × Option Error) :
    (if r.2.isSome = true then r else (r.1, none)) = r := by
  obtain ⟨a, b⟩ := r
  cases b <;> simp

theorem runVisits_single {σ : Type} (fn : WalkFunc σ) (v : Bytes × Node) (s : σ) :
    runVisits fn [v] s = fn s v.1 v.2 (visitErr v.2) := by
  simp only [runVisits]
  exact ite_isSome_self _

theorem runVisits_ne {σ : Type} (fn : WalkFunc σ) (x : Error)
    (hfn : ∀ s rel n, (fn s rel n (visitErr n)).2 ≠ some x) (vs : List (Bytes × Node)) :
    ∀ (s : σ), (runVisits fn vs s).2 ≠ some x := by
  induction vs with
  | nil => intro s; simp [runVisits]
  | cons v vs ih =>
    intro s
    simp only [runVisits]
    split
    · exact hfn _ _ _
    · exact ih _

theorem skip_guard (r : Option Error) (h : r ≠ some Error.SkipDir) :
    (r.isSome && r != some Error.SkipDir) = r.isSome := by
  cases r with
  | none => rfl
  | some e =>
    have : e ≠ Error.SkipDir := fun h0 => h (h0 ▸ rfl)
    simp [this]

mutual
theorem walk_eq_runVisits {σ : Type} (fn : WalkFunc σ)
    (hfn : ∀ s rel n, (fn s rel n (visitErr n)).2 ≠ some Error.SkipDir) (rel : Bytes) :
    ∀ (n : Node) (s : σ), walk fn rel n s = runVisits fn (visits rel n) s
  | Node.file read, s => by
    simp only [walk, visits, runVisits_single, visitErr]
  | Node.nostat err, s => by
    simp only [walk, visits, runVisits_single, visitErr]
  | Node.dir (some e) entries, s => by
    simp only [walk, visits, runVisits_single, visitErr]
    simp
  | Node.dir none entries, s => by
    simp only [walk, visits, runVisits, visitErr]
    simp only [Option.isSome_none, Bool.false_or, Option.map_none']
    split
    · rfl
    · exact walkNames_eq_runVisits fn hfn rel entries _
theorem walkNames_eq_runVisits {σ : Type} (fn : WalkFunc σ)
    (hfn : ∀ s rel n, (fn s rel n (visitErr n)).2 ≠ some Error.SkipDir) (rel : Bytes) :
    ∀ (es : List (Bytes × Node)) (s : σ), walkNames fn rel es s = runVisits fn (visitsNames rel es) s
  | [], s => by simp [walkNames, visitsNames, runVisits]
  | (name, Node.nostat err) :: rest, s => by
    have h0 := hfn s (relJoin rel name) (Node.nostat err)
    simp only [visitErr] at h0
    simp only [walkNames, visitsNames, visits, List.singleton_append, runVisits, visitErr]
    rw [skip_guard _ h0]
    split
    · rfl
    · exact walkNames_eq_runVisits fn hfn rel rest _
  | (name, Node.file read) :: rest, s => by
    simp only [walkNames, walk, visitsNames, visits, List.singleton_append, runVisits, visitErr]
    split
    · rfl
    · exact walkNames_eq_runVisits fn hfn rel rest _
  | (name, Node.dir listErr entries) :: rest, s => by
    have h1 := walk_eq_runVisits fn hfn (relJoin rel name) (Node.dir listErr entries) s
    simp only [walkNames, visitsNames, runVisits_append]
    rw [h1, skip_guard _ (runVisits_ne fn _ hfn _ _)]
    split
    · rfl
    · exact walkNames_eq_runVisits fn hfn rel rest _
end

/-- One call of the walk function of `processDirectory`, by cases: the walk
ends when the visit fails, and otherwise the record of the visit, if it has
one, is appended. -/
theorem walkFn_step (ignoreList : List Bytes) (outputFile : File) (v : Bytes × Node) :
    walkFn ignoreList outputFile v.1 v.2 (visitErr v.2) =
      match failure ignoreList v with
      | some e => (outputFile, some e)
      | none => (outputFile ++ (recordOf ignoreList v).toList, none) := by
  obtain ⟨rel, n⟩ := v
  cases n with
  | file read =>
    cases read with
    | error e =>
      by_cases hi : shouldIgnore rel ignoreList = true
      · simp [walkFn, visitErr, failure, recordOf, hi]
      · simp [walkFn, visitErr, failure, recordOf, hi, Node.IsDir, ReadFile]
    | ok content =>
      by_cases hi : shouldIgnore rel ignoreList = true
      · simp [walkFn, visitErr, failure, recordOf, hi]
      · simp [walkFn, visitErr, failure, recordOf, hi, Node.IsDir, ReadFile, Fprintf, block, bytes,
          encodeRune]
  | dir listErr entries =>
    cases listErr with
    | none =>
      by_cases hi : shouldIgnore rel ignoreList = true
      · simp [walkFn, visitErr, failure, recordOf, hi]
      · simp [walkFn, visitErr, failure, recordOf, hi, Node.IsDir]
    | some e => simp [walkFn, visitErr, failure, recordOf]
  | nostat err => simp [walkFn, visitErr, failure, recordOf]

theorem walkFn_errno (ignoreList : List Bytes) (outputFile : File) (rel : Bytes) (n : Node)
    (x : Error) (hx : ∀ e, x ≠ Error.errno e) :
    (walkFn ignoreList outputFile rel n (visitErr n)).2 ≠ some x := by
  have h := walkFn_step ignoreList outputFile (rel, n)
  simp only at h
  rw [h]
  cases hf : failure ignoreList (rel, n) with
  | none => simp
  | some e =>
    simp only [Option.some.injEq, ne_eq]
    intro hex
    subst hex
    unfold failure at hf
    split at hf
    · simp at hf
    · split at hf
      · simp at hf
      · simp at hf; exact hx _ hf.symm
    · rename_i listErr _ _
      cases listErr with
      | none => simp at hf
      | some e1 => simp at hf; exact hx _ hf.symm
    · simp at hf; exact hx _ hf.symm

theorem processDirectory_eq (fs : FS) (dirPath : Bytes) (ignoreList : List Bytes)
    (outputFile : File) :
    processDirectory fs dirPath ignoreList outputFile =
      runVisits (walkFn ignoreList) (visits (bytes ".") (Lstat fs dirPath).sorted) outputFile := by
  have hD : ∀ s rel n, (walkFn ignoreList s rel n (visitErr n)).2 ≠ some Error.SkipDir :=
    fun s rel n => walkFn_errno ignoreList s rel n _ (by intro e; simp)
  have hA : ∀ s rel n, (walkFn ignoreList s rel n (visitErr n)).2 ≠ some Error.SkipAll :=
    fun s rel n => walkFn_errno ignoreList s rel n _ (by intro e; simp)
  unfold processDirectory Walk
  simp only [walk_eq_runVisits _ hD]
  rw [if_neg]
  intro h
  rcases h with h | h
  · exact runVisits_ne _ _ hD _ _ h
  · exact runVisits_ne _ _ hA _ _ h

theorem runVisits_success (ignoreList : List Bytes) (vs : List (Bytes × Node)) :
    ∀ (outputFile : File), (∀ v ∈ vs, failure ignoreList v = none) →
      runVisits (walkFn ignoreList) vs outputFile =
        (outputFile ++ vs.filterMap (recordOf ignoreList), none) := by
  induction vs with
  | nil => intro outputFile _; simp [runVisits]
  | cons v vs ih =>
    intro outputFile h
    have hv := h v (List.mem_cons_self _ _)
    simp only [runVisits, walkFn_step, hv]
    rw [ih _ (fun u hu => h u (List.mem_cons_of_mem _ hu))]
    cases hr : recordOf ignoreList v <;> simp [List.filterMap_cons, hr]

theorem runVisits_failure (ignoreList : List Bytes) (vs : List (Bytes × Node)) :
    ∀ (outputFile : File) (e : Error),
      (runVisits (walkFn ignoreList) vs outputFile).2 = some e →
      ∃ pre v post, vs = pre ++ v :: post ∧ (∀ u ∈ pre, failure ignoreList u = none) ∧
        failure ignoreList v = some e ∧
        (runVisits (walkFn ignoreList) vs outputFile).1 =
          outputFile ++ pre.filterMap (recordOf ignoreList) := by
  induction vs with
  | nil => intro outputFile e h; simp [runVisits] at h
  | cons v vs ih =>
    intro outputFile e h
    simp only [runVisits, walkFn_step] at h ⊢
    cases hv : failure ignoreList v with
    | some e1 =>
      simp only [hv, Option.isSome_some, if_true] at h ⊢
      simp only [Option.some.injEq] at h
      subst h
      exact ⟨[], v, vs, rfl, by simp, hv, by simp⟩
    | none =>
      simp only [hv, Option.isSome_none, Bool.false_eq_true, if_false] at h ⊢
      obtain ⟨pre, w, post, hvs, hpre, hw, hout⟩ := ih _ e h
      refine ⟨v :: pre, w, post, by simp [hvs], ?_, hw, ?_⟩
      · intro u hu
        rcases List.mem_cons.mp hu with hu | hu
        · exact hu ▸ hv
        · exact hpre u hu
      · rw [hout]
        cases hr : recordOf ignoreList v <;> simp [List.filterMap_cons, hr]

theorem runVisits_none (ignoreList : List Bytes) (vs : List (Bytes × Node)) :
    ∀ (outputFile : File), (runVisits (walkFn ignoreList) vs outputFile).2 = none →
      ∀ v ∈ vs, failure ignoreList v = none := by
  induction vs with
  | nil => intro outputFile _ v hv; simp at hv
  | cons v vs ih =>
    intro outputFile h u hu
    simp only [runVisits, walkFn_step] at h
    cases hv : failure ignoreList v with
    | some e1 => simp [hv] at h
    | none =>
      simp only [hv, Option.isSome_none, Bool.false_eq_true, if_false] at h
      rcases List.mem_cons.mp hu with hu | hu
      · exact hu ▸ hv
      · exact ih _ h u hu

mutual
theorem visits_files (rel : Bytes) :
    ∀ (n : Node), (∀ v ∈ visits rel n, visitErr v.2 = none) →
      (visits rel n).filterMap fileOf = files rel n
  | Node.file read, _ => by simp [visits, files, fileOf]
  | Node.nostat err, h => by
    have := h (rel, Node.nostat err) (by simp [visits])
    simp [visitErr] at this
  | Node.dir (some e) entries, h => by
    have := h (rel, Node.dir (some e) entries) (by simp [visits])
    simp [visitErr] at this
  | Node.dir none entries, h => by
    simp only [visits, files, List.filterMap_cons, fileOf]
    exact visitsNames_files rel entries (fun v hv => h v (by simp [visits, hv]))
theorem visitsNames_files (rel : Bytes) :
    ∀ (es : List (Bytes × Node)), (∀ v ∈ visitsNames rel es, visitErr v.2 = none) →
      (visitsNames rel es).filterMap fileOf = filesNames rel es
  | [], _ => by simp [visitsNames, filesNames]
  | (name, node) :: rest, h => by
    simp only [visitsNames, filesNames, List.filterMap_append]
    rw [visits_files (relJoin rel name) node (fun v hv => h v (by simp [visitsNames, hv])),
      visitsNames_files rel rest (fun v hv => h v (by simp [visitsNames, hv]))]
end

theorem recordOf_eq (ignoreList : List Bytes) (v : Bytes × Node) :
    recordOf ignoreList v = (fileOf v).bind (recordOfFile ignoreList) := by
  obtain ⟨rel, n⟩ := v
  cases n with
  | file read => cases read <;> simp [recordOf, fileOf, recordOfFile]
  | dir listErr entries => simp [recordOf, fileOf]
  | nostat err => simp [recordOf, fileOf]

theorem failure_visitErr (ignoreList : List Bytes) (v : Bytes × Node)
    (h : failure ignoreList v = none) : visitErr v.2 = none := by
  obtain ⟨rel, n⟩ := v
  cases n with
  | file read => rfl
  | dir listErr entries => simpa [failure, visitErr] using h
  | nostat err => simp [failure] at h

theorem failure_fileOf (ignoreList : List Bytes) (v : Bytes × Node) (f : Bytes × Except Errno Bytes)
    (h : failure ignoreList v = none) (hf : fileOf v = some f)
    (hi : shouldIgnore f.1 ignoreList = false) : ∃ content, f.2 = Except.ok content := by
  obtain ⟨rel, n⟩ := v
  cases n with
  | file read =>
    simp only [fileOf, Option.some.injEq] at hf
    subst hf
    cases read with
    | ok content => exact ⟨content, rfl⟩
    | error e => simp [failure, hi] at h
  | dir listErr entries => simp [fileOf] at hf
  | nostat err => simp [fileOf] at hf

theorem records_of_files (ignoreList : List Bytes) (fl : List (Bytes × Except Errno Bytes))
    (h : ∀ f ∈ fl, shouldIgnore f.1 ignoreList = false → ∃ content, f.2 = Except.ok content) :
    ∃ records : List (Bytes × Bytes),
      fl.filter (fun f => !shouldIgnore f.1 ignoreList) =
        records.map (fun r => (r.1, Except.ok r.2)) ∧
      fl.filterMap (recordOfFile ignoreList) = records.map (fun r => block r.1 r.2) := by
  induction fl with
  | nil => exact ⟨[], rfl, rfl⟩
  | cons f fl ih =>
    obtain ⟨records, h1, h2⟩ := ih (fun g hg => h g (List.mem_cons_of_mem _ hg))
    by_cases hi : shouldIgnore f.1 ignoreList = true
    · refine ⟨records, ?_, ?_⟩
      · simp [List.filter_cons, hi, h1]
      · simp [List.filterMap_cons, recordOfFile, hi, h2]
    · have hi1 : shouldIgnore f.1 ignoreList = false := by simpa using hi
      obtain ⟨content, hc⟩ := h f (List.mem_cons_self _ _) hi1
      refine ⟨(f.1, content) :: records, ?_, ?_⟩
      · simp only [List.filter_cons, hi1, Bool.not_false, if_true, List.map_cons, h1, ← hc]
      · simp [List.filterMap_cons, recordOfFile, hi1, hc, h2]

/-- A successful walk: the files of the tree whose relative path matches no
pattern all read, and the writes are their records, in order. -/
theorem processDirectory_success (fs : FS) (dirPath : Bytes) (ignoreList : List Bytes)
    (outputFile out : File)
    (h : processDirectory fs dirPath ignoreList outputFile = (out, none)) :
    ∃ records : List (Bytes × Bytes),
      (files (bytes ".") (Lstat fs dirPath).sorted).filter (fun f => !shouldIgnore f.1 ignoreList) =
        records.map (fun r => (r.1, Except.ok r.2)) ∧
      out = outputFile ++ records.map (fun r => block r.1 r.2) := by
  rw [processDirectory_eq] at h
  have hnone := runVisits_none ignoreList _ outputFile (by rw [h])
  rw [runVisits_success ignoreList _ outputFile hnone] at h
  have hfiles := visits_files (bytes ".") (Lstat fs dirPath).sorted
    (fun v hv => failure_visitErr ignoreList v (hnone v hv))
  have hrd : ∀ f ∈ files (bytes ".") (Lstat fs dirPath).sorted, shouldIgnore f.1 ignoreList = false →
      ∃ content, f.2 = Except.ok content := by
    intro f hf hi
    rw [← hfiles] at hf
    obtain ⟨v, hv, hvf⟩ := List.mem_filterMap.mp hf
    exact failure_fileOf ignoreList v f (hnone v hv) hvf hi
  obtain ⟨records, h1, h2⟩ := records_of_files ignoreList _ hrd
  refine ⟨records, h1, ?_⟩
  have h3 : List.filterMap (recordOf ignoreList) (visits (bytes ".") (Lstat fs dirPath).sorted) =
      List.filterMap (recordOfFile ignoreList) (files (bytes ".") (Lstat fs dirPath).sorted) := by
    rw [← hfiles, List.filterMap_filterMap]
    congr 1
    funext v
    exact recordOf_eq ignoreList v
  rw [h3, h2] at h
  exact (Prod.mk.inj h).1.symm

theorem bytesLE_total : ∀ (a b : Bytes), bytesLE a b = false → bytesLE b a = true
  | [], _, h => by simp [bytesLE] at h
  | _ :: _, [], _ => by simp [bytesLE]
  | a :: as, b :: bs, h => by
    simp only [bytesLE, Bool.or_eq_false_iff, decide_eq_false_iff_not, Bool.and_eq_false_imp,
      beq_iff_eq] at h
    simp only [bytesLE, Bool.or_eq_true, decide_eq_true_eq, Bool.and_eq_true, beq_iff_eq]
    by_cases hab : a = b
    · right
      exact ⟨hab.symm, bytesLE_total as bs (h.2 hab)⟩
    · left
      omega

theorem sortedNames_insertEntry (x : Bytes × Node) : ∀ (l : List (Bytes × Node)),
    sortedNames l = true → sortedNames (insertEntry x l) = true
  | [], _ => by simp [insertEntry, sortedNames]
  | [y], _ => by
    simp only [insertEntry]
    by_cases hxy : bytesLE x.1 y.1 = true
    · simp [hxy, sortedNames]
    · have := bytesLE_total x.1 y.1 (by simpa using hxy)
      simp [hxy, sortedNames, insertEntry, this]
  | y :: z :: rest, h => by
    simp only [sortedNames, Bool.and_eq_true] at h
    have ih := sortedNames_insertEntry x (z :: rest) h.2
    simp only [insertEntry] at ih ⊢
    by_cases hxy : bytesLE x.1 y.1 = true
    · simp [hxy, sortedNames, h.1, h.2]
    · have hyx := bytesLE_total x.1 y.1 (by simpa using hxy)
      simp only [hxy, if_false, Bool.false_eq_true]
      by_cases hxz : bytesLE x.1 z.1 = true
      · simp only [hxz, if_true] at ih ⊢
        simp [sortedNames, hyx, hxz, h.2]
      · simp only [hxz, if_false, Bool.false_eq_true] at ih ⊢
        simp only [sortedNames, Bool.and_eq_true]
        exact ⟨h.1, ih⟩

theorem namesSortedNames_insertEntry (x : Bytes × Node) : ∀ (l : List (Bytes × Node)),
    namesSortedNames (insertEntry x l) = (namesSorted x.2 && namesSortedNames l)
  | [] => by simp [insertEntry, namesSortedNames]
  | y :: rest => by
    simp only [insertEntry]
    split
    · simp [namesSortedNames]
    · simp only [namesSortedNames, namesSortedNames_insertEntry x rest]
      cases namesSorted y.2 <;> cases namesSorted x.2 <;> simp

mutual
theorem namesSorted_sorted : ∀ (n : Node), namesSorted n.sorted = true
  | Node.file read => by simp [Node.sorted, namesSorted]
  | Node.nostat err => by simp [Node.sorted, namesSorted]
  | Node.dir listErr entries => by
    simp only [Node.sorted, namesSorted, Bool.and_eq_true]
    exact sortEntries_sorted entries
theorem sortEntries_sorted : ∀ (es : List (Bytes × Node)),
    sortedNames (sortEntries es) = true ∧ namesSortedNames (sortEntries es) = true
  | [] => by simp [sortEntries, sortedNames, namesSortedNames]
  | (name, node) :: rest => by
    have ih := sortEntries_sorted rest
    have hn := namesSorted_sorted node
    simp only [sortEntries]
    refine ⟨sortedNames_insertEntry _ _ ih.1, ?_⟩
    rw [namesSortedNames_insertEntry]
    simp [hn, ih.2]
end

theorem filesNames_insertEntry (rel : Bytes) (x : Bytes × Node) : ∀ (l : List (Bytes × Node)),
    (filesNames rel (insertEntry x l)).Perm (files (relJoin rel x.1) x.2 ++ filesNames rel l)
  | [] => by simp [insertEntry, filesNames]
  | y :: rest => by
    simp only [insertEntry]
    split
    · simp [filesNames]
    · simp only [filesNames]
      have ih := filesNames_insertEntry rel x rest
      refine (List.Perm.append_left _ ih).trans ?_
      rw [← List.append_assoc, ← List.append_assoc]
      exact List.Perm.append_right _ List.perm_append_comm

mutual
theorem files_sorted (rel : Bytes) : ∀ (n : Node), (files rel n.sorted).Perm (files rel n)
  | Node.file read => by simp [Node.sorted, files]
  | Node.nostat err => by simp [Node.sorted, files]
  | Node.dir listErr entries => by
    simp only [Node.sorted, files]
    exact filesNames_sorted rel entries
theorem filesNames_sorted (rel : Bytes) : ∀ (es : List (Bytes × Node)),
    (filesNames rel (sortEntries es)).Perm (filesNames rel es)
  | [] => by simp [sortEntries, filesNames]
  | (name, node) :: rest => by
    simp only [sortEntries, filesNames]
    refine (filesNames_insertEntry rel _ _).trans ?_
    exact List.Perm.append (files_sorted (relJoin rel name) node) (filesNames_sorted rel rest)
end

theorem walkFnPruned_eq (ignoreList : List Bytes) (outputFile : File) (rel : Bytes) (n : Node)
    (e : Option Error) (h : n.IsDir = true → shouldIgnore rel ignoreList = false) :
    walkFnPruned ignoreList outputFile rel n e = walkFn ignoreList outputFile rel n e := by
  unfold walkFnPruned walkFn
  by_cases hd : n.IsDir = true
  · simp [hd, h hd]
  · simp [hd]

theorem runVisits_inert (ignoreList : List Bytes) (vs : List (Bytes × Node)) (s : File)
    (h : vs.all (inert ignoreList) = true) :
    runVisits (walkFn ignoreList) vs s = (s, none) := by
  have hall : ∀ v ∈ vs, inert ignoreList v = true := List.all_eq_true.mp h
  have hf : ∀ v ∈ vs, failure ignoreList v = none := by
    intro v hv
    have := hall v hv
    simp only [inert, Bool.and_eq_true, Option.isNone_iff_eq_none] at this
    exact this.1
  rw [runVisits_success ignoreList vs s hf]
  have hr : vs.filterMap (recordOf ignoreList) = [] := by
    apply List.filterMap_eq_nil_iff.mpr
    intro v hv
    have := hall v hv
    simp only [inert, Bool.and_eq_true, Option.isNone_iff_eq_none] at this
    exact this.2
  rw [hr, List.append_nil]

theorem walkFn_ne_skipDir (ignoreList : List Bytes) :
    ∀ s rel n, (walkFn ignoreList s rel n (visitErr n)).2 ≠ some Error.SkipDir :=
  fun s rel n => walkFn_errno ignoreList s rel n _ (by intro e; simp)

mutual
theorem walk_pruned_rel (ignoreList : List Bytes) (rel : Bytes) :
    ∀ (n : Node) (s : File), prunable ignoreList rel n = true →
      walk (walkFnPruned ignoreList) rel n s = walk (walkFn ignoreList) rel n s ∨
      (n.IsDir = true ∧ walk (walkFnPruned ignoreList) rel n s = (s, some Error.SkipDir) ∧
        walk (walkFn ignoreList) rel n s = (s, none))
  | Node.file read, s, _ => by
    left
    simp only [walk]
    exact walkFnPruned_eq _ _ _ _ _ (by simp [Node.IsDir])
  | Node.nostat err, s, _ => by
    left
    simp only [walk]
    exact walkFnPruned_eq _ _ _ _ _ (by simp [Node.IsDir])
  | Node.dir (some e) entries, s, _ => by
    left
    simp [walk, walkFnPruned, walkFn]
  | Node.dir none entries, s, h => by
    by_cases hi : shouldIgnore rel ignoreList = true
    · right
      simp only [prunable, hi, if_true] at h
      refine ⟨rfl, ?_, ?_⟩
      · simp [walk, walkFnPruned, hi, Node.IsDir]
      · have h1 : walkFn ignoreList s rel (Node.dir none entries) none = (s, none) := by
          simp [walkFn, hi]
        simp only [walk, Option.map_none', Option.isSome_none, Bool.false_or, h1,
          Bool.false_eq_true, if_false]
        rw [walkNames_eq_runVisits _ (walkFn_ne_skipDir ignoreList)]
        exact runVisits_inert ignoreList _ s h
    · left
      have hi1 : shouldIgnore rel ignoreList = false := by simpa using hi
      simp only [prunable, hi1, Bool.false_eq_true, if_false] at h
      simp only [walk]
      rw [walkFnPruned_eq _ _ _ _ _ (fun _ => hi1)]
      split
      · rfl
      · exact walkNames_pruned_rel ignoreList rel entries _ h
theorem walkNames_pruned_rel (ignoreList : List Bytes) (rel : Bytes) :
    ∀ (es : List (Bytes × Node)) (s : File), prunableNames ignoreList rel es = true →
      walkNames (walkFnPruned ignoreList) rel es s = walkNames (walkFn ignoreList) rel es s
  | [], s, _ => by simp [walkNames]
  | (name, Node.nostat err) :: rest, s, h => by
    simp only [prunableNames, Bool.and_eq_true] at h
    simp only [walkNames]
    rw [walkFnPruned_eq _ _ _ _ _ (by simp [Node.IsDir])]
    split
    · rfl
    · exact walkNames_pruned_rel ignoreList rel rest _ h.2
  | (name, Node.file read) :: rest, s, h => by
    simp only [prunableNames, Bool.and_eq_true] at h
    simp only [walkNames, walk]
    rw [walkFnPruned_eq _ _ _ _ _ (by simp [Node.IsDir])]
    split
    · rfl
    · exact walkNames_pruned_rel ignoreList rel rest _ h.2
  | (name, Node.dir listErr entries) :: rest, s, h => by
    simp only [prunableNames, Bool.and_eq_true] at h
    simp only [walkNames]
    rcases walk_pruned_rel ignoreList (relJoin rel name) (Node.dir listErr entries) s h.1 with
      heq | ⟨_, hp, hi⟩
    · rw [heq]
      split
      · rfl
      · exact walkNames_pruned_rel ignoreList rel rest _ h.2
    · rw [hp, hi]
      simp only [Option.isSome_some, bne_self_eq_false, Bool.and_false, Bool.false_eq_true,
        if_false, Option.isSome_none, Bool.false_and]
      exact walkNames_pruned_rel ignoreList rel rest _ h.2
end

mutual
theorem prunable_of_not_dirIgnored (ignoreList : List Bytes) (rel : Bytes) :
    ∀ (n : Node), dirIgnored ignoreList rel n = false → prunable ignoreList rel n = true
  | Node.file read, _ => rfl
  | Node.nostat err, _ => rfl
  | Node.dir (some e) entries, _ => rfl
  | Node.dir none entries, h => by
    simp only [dirIgnored, Bool.or_eq_false_iff] at h
    simp only [prunable, h.1, Bool.false_eq_true, if_false]
    exact prunableNames_of_not_dirIgnored ignoreList rel entries h.2
theorem prunableNames_of_not_dirIgnored (ignoreList : List Bytes) (rel : Bytes) :
    ∀ (es : List (Bytes × Node)), dirIgnoredNames ignoreList rel es = false →
      prunableNames ignoreList rel es = true
  | [], _ => rfl
  | (name, node) :: rest, h => by
    simp only [dirIgnoredNames, Bool.or_eq_false_iff] at h
    simp only [prunableNames, Bool.and_eq_true]
    exact ⟨prunable_of_not_dirIgnored ignoreList (relJoin rel name) node h.1,
      prunableNames_of_not_dirIgnored ignoreList rel rest h.2⟩
end

theorem dirIgnoredNames_insertEntry (ignoreList : List Bytes) (rel : Bytes) (x : Bytes × Node) :
    ∀ (l : List (Bytes × Node)), dirIgnoredNames ignoreList rel (insertEntry x l) =
      (dirIgnored ignoreList (relJoin rel x.1) x.2 || dirIgnoredNames ignoreList rel l)
  | [] => by simp [insertEntry, dirIgnoredNames]
  | y :: rest => by
    simp only [insertEntry]
    split
    · simp [dirIgnoredNames]
    · simp only [dirIgnoredNames, dirIgnoredNames_insertEntry ignoreList rel x rest]
      cases dirIgnored ignoreList (relJoin rel y.1) y.2 <;>
        cases dirIgnored ignoreList (relJoin rel x.1) x.2 <;> simp

mutual
theorem dirIgnored_sorted (ignoreList : List Bytes) (rel : Bytes) :
    ∀ (n : Node), dirIgnored ignoreList rel n.sorted = dirIgnored ignoreList rel n
  | Node.file read => by simp [Node.sorted]
  | Node.nostat err => by simp [Node.sorted]
  | Node.dir listErr entries => by
    simp only [Node.sorted, dirIgnored]
    rw [dirIgnoredNames_sorted ignoreList rel entries]
theorem dirIgnoredNames_sorted (ignoreList : List Bytes) (rel : Bytes) :
    ∀ (es : List (Bytes × Node)),
      dirIgnoredNames ignoreList rel (sortEntries es) = dirIgnoredNames ignoreList rel es
  | [] => by simp [sortEntries]
  | (name, node) :: rest => by
    simp only [sortEntries, dirIgnoredNames, dirIgnoredNames_insertEntry]
    rw [dirIgnored_sorted ignoreList (relJoin rel name) node,
      dirIgnoredNames_sorted ignoreList rel rest]
end

theorem utf8First_size (s0 sz lo hi : Nat) (h : utf8First s0 = some (sz, lo, hi)) :
    (sz = 2 ∨ sz = 3 ∨ sz = 4) ∧ 0x80 ≤ lo := by
  unfold utf8First at h
  repeat' split at h
  all_goals simp at h
  all_goals omega

theorem DecodeRuneInString_append (s : Bytes) (b : Nat) (hs : s ≠ []) (hb : b < 0x80) :
    DecodeRuneInString (s ++ [b]) = DecodeRuneInString s := by
  cases s with
  | nil => exact absurd rfl hs
  | cons s0 t =>
    simp only [List.cons_append, DecodeRuneInString]
    by_cases h0 : s0 < 0x80
    · simp [h0]
    · simp only [h0, if_false]
      cases hu : utf8First s0 with
      | none => rfl
      | some r =>
        obtain ⟨sz, lo, hi⟩ := r
        have hsz := utf8First_size s0 sz lo hi hu
        simp only []
        rcases t with _ | ⟨s1, _ | ⟨s2, _ | ⟨s3, t3⟩⟩⟩
        all_goals simp only [List.nil_append, List.cons_append, List.length_nil, List.length_cons,
          List.length_append, isCont]
        all_goals (repeat' split)
        all_goals first
          | rfl
          | (simp_all; done)
          | (simp_all; omega)

theorem trimLeftLoop_fuel (f1 : Nat) : ∀ (f2 : Nat) (s : Bytes), s.length < f1 → s.length < f2 →
    trimLeftLoop f1 s = trimLeftLoop f2 s := by
  induction f1 with
  | zero => intro f2 s h; omega
  | succ f1 ih =>
    intro f2 s h1 h2
    cases f2 with
    | zero => omega
    | succ f2 =>
      simp only [trimLeftLoop]
      by_cases hs : s.isEmpty = true
      · simp [hs]
      · simp only [hs, if_false, Bool.false_eq_true]
        have hne : s ≠ [] := by intro h0; simp [h0] at hs
        have hw := DecodeRuneInString_width s hne
        have hpos : 0 < s.length := List.length_pos.mpr hne
        split
        · apply ih <;> simp only [List.length_drop] <;> omega
        · rfl

theorem trimLeftLoop_succ (fuel : Nat) (s : Bytes) :
    trimLeftLoop (fuel + 1) s =
      if s.isEmpty then some []
      else if IsSpace (DecodeRuneInString s).1 then trimLeftLoop fuel (s.drop (DecodeRuneInString s).2)
      else some s := rfl

theorem trimLeftLoop_append (n : Nat) : ∀ (s : Bytes), s.length ≤ n →
    trimLeftLoop (s.length + 2) (s ++ [13]) =
      (trimLeftLoop (s.length + 1) s).map (fun t => if t = [] then [] else t ++ [13]) := by
  induction n with
  | zero =>
    intro s h
    have : s = [] := List.length_eq_zero.mp (by omega)
    subst this
    decide
  | succ n ih =>
    intro s h
    by_cases hne : s = []
    · subst hne; decide
    · have hw := DecodeRuneInString_width s hne
      have hpos : 0 < s.length := List.length_pos.mpr hne
      have hd := DecodeRuneInString_append s 13 hne (by norm_num)
      have he1 : (s ++ [13]).isEmpty = false := by simp
      have he2 : s.isEmpty = false := by simp [hne]
      rw [trimLeftLoop_succ (s.length + 1) (s ++ [13]), trimLeftLoop_succ s.length s]
      simp only [he1, he2, hd, Bool.false_eq_true, if_false]
      split
      · have hdrop : List.drop (DecodeRuneInString s).2 (s ++ [13]) =
            List.drop (DecodeRuneInString s).2 s ++ [13] := by
          rw [List.drop_append_of_le_length hw.2]
        have hl : (List.drop (DecodeRuneInString s).2 s).length < s.length := by
          simp only [List.length_drop]; omega
        rw [hdrop, trimLeftLoop_fuel (s.length + 1) ((List.drop (DecodeRuneInString s).2 s).length + 2)
          _ (by simp only [List.length_append, List.length_singleton]; omega)
          (by simp only [List.length_append, List.length_singleton]; omega),
          ih _ (by omega),
          trimLeftLoop_fuel ((List.drop (DecodeRuneInString s).2 s).length + 1) s.length _
            (by omega) hl]
      · simp [hne]

theorem lastIndexFunc_succ (fuel : Nat) (s : Bytes) (i : Nat) :
    lastIndexFunc (fuel + 1) s i =
      if i = 0 then some none
      else if IsSpace (DecodeLastRuneInString (s.take i)).1 then
        lastIndexFunc fuel s (i - (DecodeLastRuneInString (s.take i)).2)
      else some (some (i - (DecodeLastRuneInString (s.take i)).2)) := rfl

theorem lastIndexFunc_append (fuel : Nat) : ∀ (s t : Bytes) (i : Nat), i ≤ s.length →
    lastIndexFunc fuel (s ++ t) i = lastIndexFunc fuel s i := by
  induction fuel with
  | zero => intro s t i _; rfl
  | succ fuel ih =>
    intro s t i hi
    rw [lastIndexFunc_succ, lastIndexFunc_succ, List.take_append_of_le_length hi]
    split
    · rfl
    · split
      · exact ih _ _ _ (by omega)
      · rfl

theorem lastIndexFunc_lt (fuel : Nat) : ∀ (s : Bytes) (i k : Nat), i ≤ s.length →
    lastIndexFunc fuel s i = some (some k) → k < i := by
  induction fuel with
  | zero => intro s i k _ h; simp [lastIndexFunc] at h
  | succ fuel ih =>
    intro s i k hi h
    rw [lastIndexFunc_succ] at h
    by_cases h0 : i = 0
    · simp [h0] at h
    · rw [if_neg h0] at h
      have hne : s.take i ≠ [] := by
        intro h1
        have := congrArg List.length h1
        simp only [List.length_take, List.length_nil] at this
        omega
      have hw := DecodeLastRuneInString_width _ hne
      split at h
      · have := ih s _ k (by omega) h
        omega
      · simp only [Option.some.injEq] at h
        omega

theorem DecodeLastRuneInString_append (s : Bytes) (b : Nat) (hb : b < 0x80) :
    DecodeLastRuneInString (s ++ [b]) = (b, 1) := by
  unfold DecodeLastRuneInString
  simp [hb]

theorem TrimRightFunc_append (s : Bytes) : TrimRightFunc (s ++ [13]) = TrimRightFunc s := by
  have h1 : lastIndexFunc ((s ++ [13]).length + 1) (s ++ [13]) (s ++ [13]).length =
      lastIndexFunc (s.length + 1) s s.length := by
    have hl : (s ++ [13]).length = s.length + 1 := by simp
    rw [hl, lastIndexFunc_succ]
    have ht : List.take (s.length + 1) (s ++ [13]) = s ++ [13] := by
      rw [← hl]; exact List.take_length _
    rw [ht, DecodeLastRuneInString_append s 13 (by norm_num)]
    simp only [Nat.add_one_ne_zero, if_false, Nat.add_sub_cancel]
    rw [if_pos (by decide)]
    exact lastIndexFunc_append _ _ _ _ (le_refl _)
  unfold TrimRightFunc
  rw [h1]
  cases hr : lastIndexFunc (s.length + 1) s s.length with
  | none => rfl
  | some r =>
    cases r with
    | none => rfl
    | some k =>
      have hk := lastIndexFunc_lt _ _ _ _ (le_refl _) hr
      have hne : s.drop k ≠ [] := by
        intro h0
        have := congrArg List.length h0
        simp only [List.length_drop, List.length_nil] at this
        omega
      have hw := DecodeRuneInString_width _ hne
      simp only [List.length_drop] at hw
      have hg : (s ++ [13]).getD k 0 = s.getD k 0 := by
        simp [List.getD_eq_getElem?_getD, List.getElem?_append_left hk]
      have hdrop : List.drop k (s ++ [13]) = List.drop k s ++ [13] :=
        List.drop_append_of_le_length (by omega)
      simp only [hg, hdrop, DecodeRuneInString_append _ 13 hne (by norm_num)]
      split
      · rw [List.take_append_of_le_length (by omega)]
      · rw [List.take_append_of_le_length (by omega)]

theorem TrimFunc_append (s : Bytes) : TrimFunc (s ++ [13]) = TrimFunc s := by
  unfold TrimFunc
  have hl : (s ++ [13]).length + 1 = s.length + 2 := by simp
  rw [hl, trimLeftLoop_append s.length s (le_refl _)]
  cases ht : trimLeftLoop (s.length + 1) s with
  | none => rfl
  | some t =>
    by_cases h0 : t = []
    · simp [h0]
    · simp only [Option.map_some', h0, if_false]
      exact TrimRightFunc_append t

theorem trimSpaceStart_append (s : Bytes) : trimSpaceStart (s ++ [13]) = trimSpaceStart s := by
  induction s with
  | nil => decide
  | cons c t ih =>
    simp only [List.cons_append, trimSpaceStart]
    split
    · exact TrimFunc_append (c :: t)
    · split
      · exact ih
      · have : (c :: t.append [13]).reverse = 13 :: (c :: t).reverse := by
          show (c :: (t ++ [13])).reverse = 13 :: (c :: t).reverse
          simp
        rw [this]
        generalize (c :: t).reverse = r
        simp [trimSpaceStop, asciiSpace]

theorem TrimSpace_dropCR (line : Bytes) : TrimSpace (dropCR line) = TrimSpace line := by
  unfold dropCR
  split
  · rename_i h
    have : line = line.dropLast ++ [13] := by
      have := List.dropLast_append_getLast? 13 h
      exact this.symm
    unfold TrimSpace
    conv => rhs; rw [this, trimSpaceStart_append]
  · rfl

theorem getIgnoreList_lines (fs : FS) (ignoreFilePath : Bytes)
    (h : (getIgnoreList fs ignoreFilePath).2 = none) :
    ∃ data, fs.node ignoreFilePath = Node.file (Except.ok data) ∧
      (getIgnoreList fs ignoreFilePath).1 = (textLines data).map TrimSpace := by
  obtain ⟨data, h1, h2⟩ := getIgnoreList_ok fs ignoreFilePath h
  refine ⟨data, h1, ?_⟩
  rw [h2]
  exact List.map_congr_left (fun l _ => TrimSpace_dropCR l)

theorem processDirectory_err (fs : FS) (dirPath : Bytes) (ignoreList : List Bytes)
    (out1 out2 : File) :
    (processDirectory fs dirPath ignoreList out1).2 =
      (processDirectory fs dirPath ignoreList out2).2 := by
  rw [processDirectory_eq, processDirectory_eq]
  generalize visits (bytes ".") (Lstat fs dirPath).sorted = vs
  induction vs generalizing out1 out2 with
  | nil => rfl
  | cons v vs ih =>
    simp only [runVisits, walkFn_step]
    cases hv : failure ignoreList v with
    | some e => simp
    | none =>
      simp only [Option.isSome_none, Bool.false_eq_true, if_false]
      exact ih _ _

set_option maxRecDepth 100000 in
theorem defaultPreamble_eq : defaultPreamble = defaultText ++ bytes "\n" := by
  decide

theorem mainBody_cases (fs : FS) (preambleFile outputFile dirPath : Bytes)
    (ignoreList : List Bytes) :
    (∃ P, (if preambleFile = [] then P = defaultText
            else ReadFile (fs.node preambleFile) = Except.ok P) ∧
        (processDirectory fs dirPath ignoreList [P ++ bytes "\n"]).2 = none ∧
        mainBody fs preambleFile outputFile dirPath ignoreList =
          ⟨0, [Msg.written outputFile],
            some ((processDirectory fs dirPath ignoreList [P ++ bytes "\n"]).1 ++
              [bytes "--END--"])⟩) ∨
    ((mainBody fs preambleFile outputFile dirPath ignoreList).exitCode = 1 ∧
      Msg.written outputFile ∉ (mainBody fs preambleFile outputFile dirPath ignoreList).stdout ∧
      ((mainBody fs preambleFile outputFile dirPath ignoreList).outFile = none ∨
        (mainBody fs preambleFile outputFile dirPath ignoreList).outFile = some [] ∨
        ∃ P, (if preambleFile = [] then P = defaultText
              else ReadFile (fs.node preambleFile) = Except.ok P) ∧
          (processDirectory fs dirPath ignoreList [P ++ bytes "\n"]).2 ≠ none ∧
          (mainBody fs preambleFile outputFile dirPath ignoreList).outFile =
            some (processDirectory fs dirPath ignoreList [P ++ bytes "\n"]).1)) := by
  unfold mainBody
  cases hc : fs.create outputFile with
  | some e => right; simp
  | none =>
    simp only []
    by_cases hp : preambleFile = []
    · subst hp
      simp only [ne_eq, not_true_eq_false, if_false, WriteString, List.nil_append,
        defaultPreamble_eq]
      cases hr : (processDirectory fs dirPath ignoreList [defaultText ++ bytes "\n"]).2 with
      | none => left; exact ⟨defaultText, by simp, hr, rfl⟩
      | some e =>
        right
        exact ⟨rfl, by simp, Or.inr (Or.inr ⟨defaultText, by simp, by simp [hr], rfl⟩)⟩
    · simp only [ne_eq, hp, not_false_eq_true, if_true, WriteString, List.nil_append]
      cases hread : ReadFile (fs.node preambleFile) with
      | error e => right; simp
      | ok P =>
        simp only []
        cases hr : (processDirectory fs dirPath ignoreList [P ++ bytes "\n"]).2 with
        | none => left; exact ⟨P, by simp [hp], hr, rfl⟩
        | some e =>
          right
          exact ⟨rfl, by simp, Or.inr (Or.inr ⟨P, by simp [hp], by simp [hr], rfl⟩)⟩

theorem main_cases (fs : FS) (preambleFile outputFile dirPath : Bytes) (rest : List Bytes) :
    main fs preambleFile outputFile (dirPath :: rest) =
        mainBody fs preambleFile outputFile dirPath
          (getIgnoreList fs (Join [dirPath, bytes ".totxtignore"])).1 ∨
    ∃ e, (getIgnoreList fs (Join [dirPath, bytes ".totxtignore"])).2 = some e ∧
      IsNotExist (some e) = false ∧
      main fs preambleFile outputFile (dirPath :: rest) = ⟨1, [Msg.errIgnore e], none⟩ := by
  unfold main
  simp only []
  cases hr : (getIgnoreList fs (Join [dirPath, bytes ".totxtignore"])).2 with
  | none => left; rfl
  | some e =>
    by_cases hn : IsNotExist (some e) = true
    · left; simp [hn]
    · right
      exact ⟨e, rfl, by simpa using hn, by simp [hn]⟩

theorem blocks_flatten (records : List (Bytes × Bytes)) :
    (records.map (fun r => block r.1 r.2)).flatten =
      records.flatMap (fun r => bytes "----" ++ bytes "\n" ++ r.1 ++ bytes "\n" ++ r.2 ++ bytes "\n") := by
  induction records with
  | nil => rfl
  | cons r rs ih =>
    simp only [List.map_cons, List.flatten_cons, List.flatMap_cons, ih]
    simp [block, bytes, encodeRune]

/-! ## The claims -/

/-- C1: `shouldIgnore P S` is true exactly when some pattern of `S` matches the
whole of `P` under `filepath.Match`; it is false for the empty list; with the
patterns `*.txt` and `*.log` it is true for `file.txt` and `file.log` and
false for `file.go` and `file.jpg`.  The match is anchored (`file` does not
match `file.txt`) and case-sensitive (`*.TXT` does not match `file.txt`). -/
theorem shouldIgnore_iff_some_pattern_matches (P : Bytes) (S : List Bytes) :
    (shouldIgnore P S = true ↔ ∃ pattern ∈ S, (Match pattern P).1 = true) ∧
    shouldIgnore P [] = false ∧
    shouldIgnore (bytes "file.txt") [bytes "*.txt", bytes "*.log"] = true ∧
    shouldIgnore (bytes "file.log") [bytes "*.txt", bytes "*.log"] = true ∧
    shouldIgnore (bytes "file.go") [bytes "*.txt", bytes "*.log"] = false ∧
    shouldIgnore (bytes "file.jpg") [bytes "*.txt", bytes "*.log"] = false ∧
    shouldIgnore (bytes "file.txt") [bytes "file"] = false ∧
    shouldIgnore (bytes "file.txt") [bytes "*.TXT"] = false :=
  ⟨shouldIgnore_iff P S, rfl, by decide, by decide, by decide, by decide, by decide, by decide⟩

/-- C2: when `processDirectory` returns no error, the files of the tree whose
own relative path matches no pattern all read, and the writes appended to the
output file are exactly their records, one for each, in the order of the walk:
depth-first, the names of every directory in byte order.  So the record of
each such file is written, and every write is the record of such a file.  The
files listed are those of the tree as it is on disk, in another order at most.
Directories and files whose path matches have no record; a file below a
directory whose path matches keeps its record. -/
theorem processDirectory_records (fs : FS) (dirPath : Bytes) (ignoreList : List Bytes)
    (outputFile out : File)
    (h : processDirectory fs dirPath ignoreList outputFile = (out, none)) :
    ∃ records : List (Bytes × Bytes),
      (files (bytes ".") (Lstat fs dirPath).sorted).filter (fun f => !shouldIgnore f.1 ignoreList) =
        records.map (fun r => (r.1, Except.ok r.2)) ∧
      out = outputFile ++ records.map (fun r => block r.1 r.2) ∧
      (∀ path content, (path, Except.ok content) ∈ files (bytes ".") (Lstat fs dirPath).sorted →
        shouldIgnore path ignoreList = false → (path, content) ∈ records) ∧
      (∀ r ∈ records, (r.1, Except.ok r.2) ∈ files (bytes ".") (Lstat fs dirPath).sorted ∧
        shouldIgnore r.1 ignoreList = false) ∧
      namesSorted (Lstat fs dirPath).sorted = true ∧
      (files (bytes ".") (Lstat fs dirPath).sorted).Perm (files (bytes ".") (Lstat fs dirPath)) := by
  obtain ⟨records, h1, h2⟩ := processDirectory_success fs dirPath ignoreList outputFile out h
  refine ⟨records, h1, h2, ?_, ?_, namesSorted_sorted _, files_sorted _ _⟩
  · intro path content hmem hi
    have hf : (path, (Except.ok content : Except Errno Bytes)) ∈
        (files (bytes ".") (Lstat fs dirPath).sorted).filter (fun f => !shouldIgnore f.1 ignoreList) := by
      simp [List.mem_filter, hmem, hi]
    rw [h1] at hf
    obtain ⟨r, hr, heq⟩ := List.mem_map.mp hf
    simp only [Prod.mk.injEq, Except.ok.injEq] at heq
    obtain ⟨r1, r2⟩ := r
    simp only at heq
    rw [← heq.1, ← heq.2]
    exact hr
  · intro r hr
    have hf : (r.1, (Except.ok r.2 : Except Errno Bytes)) ∈
        records.map (fun r => (r.1, (Except.ok r.2 : Except Errno Bytes))) :=
      List.mem_map.mpr ⟨r, hr, rfl⟩
    rw [← h1] at hf
    have := List.mem_filter.mp hf
    exact ⟨this.1, by simpa using this.2⟩

/-- C3: for a file with relative path `R` that matches no pattern and content
`C`, the walk function appends one write, the bytes `----`, newline, `R`,
newline, `C`, newline, with `C` as it is; and after a walk without error the
bytes added to the output file are these blocks, one after the other, for the
files of the tree whose relative path matches no pattern. -/
theorem processDirectory_blocks (fs : FS) (dirPath : Bytes) (ignoreList : List Bytes)
    (outputFile out : File)
    (h : processDirectory fs dirPath ignoreList outputFile = (out, none)) :
    (∀ R C : Bytes, shouldIgnore R ignoreList = false →
      walkFn ignoreList outputFile R (Node.file (Except.ok C)) none =
        (outputFile ++ [bytes "----" ++ bytes "\n" ++ R ++ bytes "\n" ++ C ++ bytes "\n"], none)) ∧
    ∃ records : List (Bytes × Bytes),
      (files (bytes ".") (Lstat fs dirPath).sorted).filter (fun f => !shouldIgnore f.1 ignoreList) =
        records.map (fun r => (r.1, Except.ok r.2)) ∧
      File.contents out = File.contents outputFile ++
        records.flatMap (fun r => bytes "----" ++ bytes "\n" ++ r.1 ++ bytes "\n" ++ r.2 ++ bytes "\n") := by
  refine ⟨?_, ?_⟩
  · intro R C hR
    simp [walkFn, hR, Node.IsDir, ReadFile, Fprintf, bytes, encodeRune]
  · obtain ⟨records, h1, h2⟩ := processDirectory_success fs dirPath ignoreList outputFile out h
    refine ⟨records, h1, ?_⟩
    subst h2
    simp only [File.contents, List.flatten_append, blocks_flatten]

/-- C5, as amended: for an ignore file that is read without error and has no
empty line, the pattern list is the list of the non-empty lines of the file,
each with `strings.TrimSpace` applied, in the order of the lines; so it has as
many patterns as the file has non-empty lines. -/
theorem getIgnoreList_no_empty_line (fs : FS) (ignoreFilePath data : Bytes)
    (hnode : fs.node ignoreFilePath = Node.file (Except.ok data))
    (herr : (getIgnoreList fs ignoreFilePath).2 = none)
    (hne : ∀ l ∈ textLines data, l ≠ []) :
    (getIgnoreList fs ignoreFilePath).1 =
        ((textLines data).filter (fun l => !l.isEmpty)).map TrimSpace ∧
    (getIgnoreList fs ignoreFilePath).1.length =
        ((textLines data).filter (fun l => !l.isEmpty)).length := by
  obtain ⟨data1, h1, h2⟩ := getIgnoreList_lines fs ignoreFilePath herr
  rw [hnode] at h1
  cases h1
  have hf : (textLines data).filter (fun l => !l.isEmpty) = textLines data := by
    apply List.filter_eq_self.mpr
    intro l hl
    have := hne l hl
    cases l with
    | nil => exact absurd rfl this
    | cons c t => rfl
  rw [hf, h2]
  exact ⟨rfl, by simp⟩

/-- C9: when the root cannot be examined (as for the empty path, which names
nothing) `processDirectory` returns the error and writes nothing; `main` then
exits with status 1, does not print the line of success, and leaves an output
file that holds the preamble at most, without the marker `--END--`.  When
`processDirectory` returns an error `e` in the middle of the walk, the walk
has stopped at the first visit that fails, and the output file holds, after
what it held before, the records of the visits before that one only: none for
the entry that failed and none for a later one; `main`, with the ignore list
it loads, exits with status 1 in the same way, the output file left as
`processDirectory` left it. -/
theorem processDirectory_failure (fs : FS) (dirPath : Bytes) (ignoreList : List Bytes)
    (outputFile : File) :
    (∀ en, Lstat fs dirPath = Node.nostat en →
      processDirectory fs dirPath ignoreList outputFile = (outputFile, some (Error.errno en)) ∧
      ∀ (preambleFile outFilePath : Bytes) (rest : List Bytes),
        (main fs preambleFile outFilePath (dirPath :: rest)).exitCode = 1 ∧
        Msg.written outFilePath ∉ (main fs preambleFile outFilePath (dirPath :: rest)).stdout ∧
        ((main fs preambleFile outFilePath (dirPath :: rest)).outFile = none ∨
          (main fs preambleFile outFilePath (dirPath :: rest)).outFile = some [] ∨
          ∃ P, (if preambleFile = [] then P = defaultText
                else ReadFile (fs.node preambleFile) = Except.ok P) ∧
            (main fs preambleFile outFilePath (dirPath :: rest)).outFile =
              some [P ++ bytes "\n"])) ∧
    processDirectory fs [] ignoreList outputFile = (outputFile, some (Error.errno Errno.ENOENT)) ∧
    (∀ e, (processDirectory fs dirPath ignoreList outputFile).2 = some e →
      (∃ pre v post, visits (bytes ".") (Lstat fs dirPath).sorted = pre ++ v :: post ∧
        (∀ u ∈ pre, failure ignoreList u = none) ∧ failure ignoreList v = some e ∧
        (processDirectory fs dirPath ignoreList outputFile).1 =
          outputFile ++ pre.filterMap (recordOf ignoreList)) ∧
      ∀ (preambleFile outFilePath : Bytes) (rest : List Bytes),
        ignoreList = (getIgnoreList fs (Join [dirPath, bytes ".totxtignore"])).1 →
        (main fs preambleFile outFilePath (dirPath :: rest)).exitCode = 1 ∧
        Msg.written outFilePath ∉ (main fs preambleFile outFilePath (dirPath :: rest)).stdout ∧
        ((main fs preambleFile outFilePath (dirPath :: rest)).outFile = none ∨
          (main fs preambleFile outFilePath (dirPath :: rest)).outFile = some [] ∨
          ∃ P, (if preambleFile = [] then P = defaultText
                else ReadFile (fs.node preambleFile) = Except.ok P) ∧
            (main fs preambleFile outFilePath (dirPath :: rest)).outFile =
              some (processDirectory fs dirPath ignoreList [P ++ bytes "\n"]).1)) := by
  have hroot : ∀ (d : Bytes) (ign : List Bytes) (out : File) (en : Errno),
      Lstat fs d = Node.nostat en →
      processDirectory fs d ign out = (out, some (Error.errno en)) := by
    intro d ign out en hn
    rw [processDirectory_eq, hn]
    simp [Node.sorted, visits, runVisits, walkFn, visitErr]
  have hmain : ∀ (ign : List Bytes) (preambleFile outFilePath : Bytes) (rest : List Bytes),
      (∀ out, (processDirectory fs dirPath ign out).2 ≠ none) →
      ign = (getIgnoreList fs (Join [dirPath, bytes ".totxtignore"])).1 →
      (main fs preambleFile outFilePath (dirPath :: rest)).exitCode = 1 ∧
      Msg.written outFilePath ∉ (main fs preambleFile outFilePath (dirPath :: rest)).stdout ∧
      ((main fs preambleFile outFilePath (dirPath :: rest)).outFile = none ∨
        (main fs preambleFile outFilePath (dirPath :: rest)).outFile = some [] ∨
        ∃ P, (if preambleFile = [] then P = defaultText
              else ReadFile (fs.node preambleFile) = Except.ok P) ∧
          (main fs preambleFile outFilePath (dirPath :: rest)).outFile =
            some (processDirectory fs dirPath ign [P ++ bytes "\n"]).1) := by
    intro ign preambleFile outFilePath rest hfail hign
    rcases main_cases fs preambleFile outFilePath dirPath rest with hm | ⟨e1, _, _, hm⟩
    · rw [hm, ← hign]
      rcases mainBody_cases fs preambleFile outFilePath dirPath ign with
        ⟨P, _, hnone, _⟩ | ⟨h1, h2, h3⟩
      · exact absurd hnone (hfail _)
      · refine ⟨h1, h2, ?_⟩
        rcases h3 with h3 | h3 | ⟨P, hP, _, h3⟩
        · exact Or.inl h3
        · exact Or.inr (Or.inl h3)
        · exact Or.inr (Or.inr ⟨P, hP, h3⟩)
    · rw [hm]
      simp
  refine ⟨?_, hroot [] ignoreList outputFile Errno.ENOENT rfl, ?_⟩
  · intro en hn
    refine ⟨hroot dirPath ignoreList outputFile en hn, ?_⟩
    intro preambleFile outFilePath rest
    have := hmain _ preambleFile outFilePath rest
      (fun out => by rw [hroot dirPath _ out en hn]; simp) rfl
    refine ⟨this.1, this.2.1, ?_⟩
    rcases this.2.2 with h3 | h3 | ⟨P, hP, h3⟩
    · exact Or.inl h3
    · exact Or.inr (Or.inl h3)
    · rw [hroot dirPath _ _ en hn] at h3
      exact Or.inr (Or.inr ⟨P, hP, h3⟩)
  · intro e h
    refine ⟨?_, ?_⟩
    · rw [processDirectory_eq] at h ⊢
      exact runVisits_failure ignoreList _ outputFile e h
    · intro preambleFile outFilePath rest hign
      exact hmain ignoreList preambleFile outFilePath rest
        (fun out => by rw [processDirectory_err fs dirPath ignoreList out outputFile, h]; simp) hign

/-- C10, as amended: pruning leaves the result of the walk unchanged, the
writes and the error, in every tree, read as the walk reads it, in which every
entry below a directory whose relative path matches a pattern is without
effect in the walk as implemented: it can be examined and, if a directory,
listed, and if a file, its own relative path matches a pattern.  This holds in
particular when no directory of the tree has a relative path that matches. -/
theorem pruning_same_output (fs : FS) (dirPath : Bytes) (ignoreList : List Bytes)
    (outputFile : File) (h : prunable ignoreList (bytes ".") (Lstat fs dirPath).sorted = true) :
    processDirectoryPruned fs dirPath ignoreList outputFile =
      processDirectory fs dirPath ignoreList outputFile ∧
    (dirIgnored ignoreList (bytes ".") (Lstat fs dirPath) = false →
      prunable ignoreList (bytes ".") (Lstat fs dirPath).sorted = true) := by
  refine ⟨?_, ?_⟩
  · unfold processDirectoryPruned processDirectory Walk
    rcases walk_pruned_rel ignoreList (bytes ".") (Lstat fs dirPath).sorted outputFile h with
      heq | ⟨_, hp, hi⟩
    · rw [heq]
    · rw [hp, hi]
      simp
  · intro hd
    exact prunable_of_not_dirIgnored ignoreList (bytes ".") _ (by rw [dirIgnored_sorted]; exact hd)

/-! ## Witnesses and counterexamples -/

/-- Witness of C2: on the example tree with the pattern `sub`, the walk
succeeds and writes the records of the three files, the file below `sub`
among them. -/
theorem processDirectory_records_witness :
    processDirectory exampleFS (bytes "root") [bytes "sub"] [] =
      ([block (bytes ".totxtignore") (bytes "*.txt\n\n*.log\n"),
        block (bytes "a.go") (bytes "package a"),
        block (bytes "sub/file.txt") (bytes "x")], none) ∧
    ∃ records : List (Bytes × Bytes),
      (files (bytes ".") (Lstat exampleFS (bytes "root")).sorted).filter
          (fun f => !shouldIgnore f.1 [bytes "sub"]) =
        records.map (fun r => (r.1, Except.ok r.2)) ∧
      [block (bytes ".totxtignore") (bytes "*.txt\n\n*.log\n"),
        block (bytes "a.go") (bytes "package a"),
        block (bytes "sub/file.txt") (bytes "x")] = [] ++ records.map (fun r => block r.1 r.2) ∧
      (∀ path content,
        (path, Except.ok content) ∈ files (bytes ".") (Lstat exampleFS (bytes "root")).sorted →
        shouldIgnore path [bytes "sub"] = false → (path, content) ∈ records) ∧
      (∀ r ∈ records, (r.1, Except.ok r.2) ∈ files (bytes ".") (Lstat exampleFS (bytes "root")).sorted ∧
        shouldIgnore r.1 [bytes "sub"] = false) ∧
      namesSorted (Lstat exampleFS (bytes "root")).sorted = true ∧
      (files (bytes ".") (Lstat exampleFS (bytes "root")).sorted).Perm
        (files (bytes ".") (Lstat exampleFS (bytes "root"))) :=
  ⟨by decide, processDirectory_records exampleFS (bytes "root") [bytes "sub"] [] _ (by decide)⟩

/-- Witness of C3: the tree of the test `TestProcessDirectory`, one file
`testfile.txt` with the content `test content`, and the empty ignore list. -/
theorem processDirectory_blocks_witness :
    processDirectory plainFS (bytes "root") [] [] =
      ([bytes "----\ntestfile.txt\ntest content\n"], none) ∧
    ∃ records : List (Bytes × Bytes),
      (files (bytes ".") (Lstat plainFS (bytes "root")).sorted).filter
          (fun f => !shouldIgnore f.1 []) =
        records.map (fun r => (r.1, Except.ok r.2)) ∧
      File.contents [bytes "----\ntestfile.txt\ntest content\n"] = File.contents [] ++
        records.flatMap
          (fun r => bytes "----" ++ bytes "\n" ++ r.1 ++ bytes "\n" ++ r.2 ++ bytes "\n") :=
  ⟨by decide, (processDirectory_blocks plainFS (bytes "root") [] [] _ (by decide)).2⟩

/-- Counterexample to C5 as stated: an ignore file with the lines `*.txt`, an
empty line and `*.log` has two non-empty lines; the list returned has three
patterns, the second of them empty, and is not the list of the non-empty lines. -/
theorem getIgnoreList_empty_line_counterexample :
    exampleFS.node (bytes "root/.totxtignore") =
      Node.file (Except.ok (bytes "*.txt\n\n*.log\n")) ∧
    getIgnoreList exampleFS (bytes "root/.totxtignore") =
      ([bytes "*.txt", [], bytes "*.log"], none) ∧
    ((textLines (bytes "*.txt\n\n*.log\n")).filter (fun l => !l.isEmpty)).length = 2 ∧
    (getIgnoreList exampleFS (bytes "root/.totxtignore")).1.length = 3 ∧
    (getIgnoreList exampleFS (bytes "root/.totxtignore")).1 ≠
      ((textLines (bytes "*.txt\n\n*.log\n")).filter (fun l => !l.isEmpty)).map TrimSpace :=
  ⟨rfl, by decide⟩

/-- Witness of C5 as amended: the ignore file of the test `TestGetIgnoreList`,
with the two lines `*.txt` and `*.log`, gives these two patterns. -/
theorem getIgnoreList_no_empty_line_witness :
    getIgnoreList testFS (bytes "test.gptignore") = ([bytes "*.txt", bytes "*.log"], none) ∧
    (getIgnoreList testFS (bytes "test.gptignore")).1 =
        ((textLines (bytes "*.txt\n*.log\n")).filter (fun l => !l.isEmpty)).map TrimSpace ∧
    (getIgnoreList testFS (bytes "test.gptignore")).1.length =
        ((textLines (bytes "*.txt\n*.log\n")).filter (fun l => !l.isEmpty)).length :=
  ⟨by decide,
    getIgnoreList_no_empty_line testFS (bytes "test.gptignore") (bytes "*.txt\n*.log\n")
      rfl (by decide) (by decide)⟩

set_option maxRecDepth 100000 in
/-- Witness of C9: the file `b.txt` cannot be read; the walk writes the record
of `a.txt`, stops with the error, and writes nothing for `b.txt` and `c.txt`;
`main` exits with status 1 and the output file has no marker.  For the empty
path nothing is written, and `main` leaves the preamble only. -/
theorem processDirectory_failure_witness :
    processDirectory brokenFS (bytes "root") [] [] =
      ([bytes "----\na.txt\n1\n"], some (Error.errno Errno.EACCES)) ∧
    main brokenFS [] (bytes "output.txt") [bytes "root"] =
      ⟨1, [Msg.errProcess (Error.errno Errno.EACCES)],
        some [defaultText ++ bytes "\n", bytes "----\na.txt\n1\n"]⟩ ∧
    (main brokenFS [] (bytes "output.txt") [bytes "root"]).exitCode = 1 ∧
    Msg.written (bytes "output.txt") ∉
      (main brokenFS [] (bytes "output.txt") [bytes "root"]).stdout ∧
    processDirectory brokenFS [] [] [] = ([], some (Error.errno Errno.ENOENT)) ∧
    main brokenFS [] (bytes "output.txt") [[]] =
      ⟨1, [Msg.errProcess (Error.errno Errno.ENOENT)], some [defaultText ++ bytes "\n"]⟩ ∧
    (main brokenFS [] (bytes "output.txt") [[]]).exitCode = 1 :=
  ⟨by decide, by decide,
    (((processDirectory_failure brokenFS (bytes "root") [] []).2.2
      (Error.errno Errno.EACCES) (by decide)).2 [] (bytes "output.txt") [] (by decide)).1,
    (((processDirectory_failure brokenFS (bytes "root") [] []).2.2
      (Error.errno Errno.EACCES) (by decide)).2 [] (bytes "output.txt") [] (by decide)).2.1,
    (processDirectory_failure brokenFS (bytes "root") [] []).2.1,
    by decide,
    (((processDirectory_failure brokenFS [] [] []).1 Errno.ENOENT rfl).2
      [] (bytes "output.txt") []).1⟩

/-- Counterexample to C10 as stated: the directory `sub` matches the pattern
`sub` and its file `sub/file.txt` does not; the walk as implemented writes the
record of that file, the walk with pruning does not. -/
theorem pruning_changes_output_counterexample :
    processDirectory exampleFS (bytes "root") [bytes "sub"] [] =
      ([bytes "----\n.totxtignore\n*.txt\n\n*.log\n\n", bytes "----\na.go\npackage a\n",
        bytes "----\nsub/file.txt\nx\n"], none) ∧
    processDirectoryPruned exampleFS (bytes "root") [bytes "sub"] [] =
      ([bytes "----\n.totxtignore\n*.txt\n\n*.log\n\n", bytes "----\na.go\npackage a\n"],
        none) ∧
    processDirectoryPruned exampleFS (bytes "root") [bytes "sub"] [] ≠
      processDirectory exampleFS (bytes "root") [bytes "sub"] [] := by
  decide

/-- Witness of C10 as amended: with the patterns `sub` and `sub/*` the
directory `sub` matches and so does the file below it, and the two walks
write the same records; with the pattern `*.go` no directory matches. -/
theorem pruning_same_output_witness :
    prunable [bytes "sub", bytes "sub/*"] (bytes ".") (Lstat exampleFS (bytes "root")).sorted = true ∧
    processDirectory exampleFS (bytes "root") [bytes "sub", bytes "sub/*"] [] =
      ([bytes "----\n.totxtignore\n*.txt\n\n*.log\n\n", bytes "----\na.go\npackage a\n"],
        none) ∧
    processDirectoryPruned exampleFS (bytes "root") [bytes "sub", bytes "sub/*"] [] =
      processDirectory exampleFS (bytes "root") [bytes "sub", bytes "sub/*"] [] ∧
    dirIgnored [bytes "*.go"] (bytes ".") (Lstat exampleFS (bytes "root")) = false ∧
    prunable [bytes "*.go"] (bytes ".") (Lstat exampleFS (bytes "root")).sorted = true :=
  ⟨by decide, by decide,
    (pruning_same_output exampleFS (bytes "root") [bytes "sub", bytes "sub/*"] []
      (by decide)).1,
    by decide,
    (pruning_same_output exampleFS (bytes "root") [bytes "*.go"] [] (by decide)).2
      (by decide)⟩

end Totxt
